import Mathlib

/-!
# easyconfig: codec registry and value normalisation

A shallow embedding of `parsers/parsers.go` and `parsers/xml_parser.go`.

* Go strings are lists of characters (`Str`).  The code only inspects keys at
  the ASCII characters `.`, `-` and the ASCII prefix `attr_`, so a prefix test
  or a cut of the UTF-8 bytes lands where the same operation on characters does;
  indices count characters.
* `map[string]interface{}` is an association list in iteration order whose
  keys are pairwise distinct; `m[k] = v` is `mapSet`, which overwrites the
  binding of `k` when there is one and adds a binding otherwise.
* A Go `error` is `Option Error` (`none` is `nil`); a run-time panic is a
  separate outcome.
* The third-party grammar libraries (ini, properties, mxj, json, toml, yaml,
  hcl, fmt, unicode) are passed in as `Libs`.  The ini document the encoder
  builds is modelled after gopkg.in/ini.v1: sections and keys are created on
  first use, the empty section name is the section DEFAULT, a key missing in a
  section is looked up in its parent sections, and no key has an empty name.
* Every call is instrumented with the list of store and stream operations it
  performs (`Event`).
-/

namespace Easyconfig

/-! ## Strings -/

/-- A Go string. -/
abbrev Str := List Char

/-- The Go call strings.HasPrefix(s, p). -/
def HasPrefix (s p : Str) : Bool := p.isPrefixOf s

/-- The Go call strings.LastIndex(s, string(c)) for a one-character separator:
the index of the last occurrence of `c`, or -1. -/
def LastIndex : Str → Char → Int
  | [], _ => -1
  | a :: s, c =>
    let r := LastIndex s c
    if 0 ≤ r then r + 1 else if a = c then 0 else -1

/-- The slice expression s[:hi] with its bounds check: `none` is the
run-time panic "slice bounds out of range". -/
def sliceTo (s : Str) (hi : Int) : Option Str :=
  if 0 ≤ hi ∧ hi ≤ (s.length : Int) then some (s.take hi.toNat) else none

/-- The slice expression s[lo:] with its bounds check. -/
def sliceFrom (s : Str) (lo : Int) : Option Str :=
  if 0 ≤ lo ∧ lo ≤ (s.length : Int) then some (s.drop lo.toNat) else none

/-- The Go call strings.Split(s, string(sep)) for a one-character separator. -/
def Split : Str → Char → List Str
  | [], _ => [[]]
  | a :: s, sep =>
    if a = sep then [] :: Split s sep
    else match Split s sep with
      | [] => [[a]]
      | seg :: segs => (a :: seg) :: segs

/-- The Go call strings.Replace(s, string(old), string(new), -1). -/
def Replace (s : Str) (old new : Char) : Str :=
  s.map (fun a => if a = old then new else a)

/-- The Go call strings.Join(parts, sep). -/
def Join : List Str → Str → Str
  | [], _ => []
  | [a], _ => a
  | a :: b :: rest, sep => a ++ sep ++ Join (b :: rest) sep

/-! ## Values held in an `interface{}` -/

/-- A dynamic value that is neither a map[string]interface{} nor a []interface{}. -/
inductive Scalar where
  | null
  | bool (b : Bool)
  | int (n : Int)
  | str (s : Str)
deriving DecidableEq

/-- A dynamic value as `MapInterfaceGetValue` distinguishes them. -/
inductive Value where
  | scalar (a : Scalar)
  | slice (xs : List Value)
  | map (kvs : List (Str × Value))

/-- A map[string]interface{}: bindings in iteration order. -/
abbrev Mapping := List (Str × Value)

/-- The assignment m[k] = v. -/
def mapSet {β : Type} : List (Str × β) → Str → β → List (Str × β)
  | [], k, v => [(k, v)]
  | (k0, v0) :: rest, k, v =>
    if k0 = k then (k0, v) :: rest else (k0, v0) :: mapSet rest k v

/-- The lookup m[k] with its presence flag. -/
def mapGet {β : Type} : List (Str × β) → Str → Option β
  | [], _ => none
  | (k0, v0) :: rest, k => if k0 = k then some v0 else mapGet rest k

/-- The keys of a map. -/
def mapKeys {β : Type} (m : List (Str × β)) : List Str := m.map Prod.fst

/-- A fresh map filled by assigning the given bindings in order. -/
def mapOfEntries {β : Type} (es : List (Str × β)) : List (Str × β) :=
  es.foldl (fun m e => mapSet m e.1 e.2) []

/-! ## xml_parser.go: MapInterfaceGetValue -/

/-- The key renaming in the loop body of `MapInterfaceGetValue`
(xml_parser.go lines 17-22): two successive `if`s on the same variable. -/
def renameKey (isRead : Bool) (k : Str) : Str :=
  let k1 := if isRead && HasPrefix k "-".toList then "attr_".toList ++ k.drop 1 else k
  if !isRead && HasPrefix k1 "attr_".toList then "-".toList ++ k1.drop 5 else k1

mutual
/-- The function `MapInterfaceGetValue` of xml_parser.go. -/
def MapInterfaceGetValue : Value → Bool → Value
  | .map valueMap, isRead => .map (mapOfEntries (rangeMap valueMap isRead))
  | .slice valueSlice, isRead => .slice (rangeSlice valueSlice isRead)
  | .scalar a, _ => .scalar a
/-- The bindings assigned to newMap, in iteration order (lines 16-24). -/
def rangeMap : List (Str × Value) → Bool → List (Str × Value)
  | [], _ => []
  | (k, v) :: rest, isRead =>
    (renameKey isRead k, MapInterfaceGetValue v isRead) :: rangeMap rest isRead
/-- The elements stored into newSlice (lines 29-31). -/
def rangeSlice : List Value → Bool → List Value
  | [], _ => []
  | v :: rest, isRead => MapInterfaceGetValue v isRead :: rangeSlice rest isRead
end

mutual
/-- Whether every mapping inside a value has a key list accepted by `p`. -/
def Value.allMaps (p : List Str → Bool) : Value → Bool
  | .scalar _ => true
  | .slice xs => Value.allMapsSlice p xs
  | .map kvs => p (mapKeys kvs) && Value.allMapsEntries p kvs
/-- The same for the values of a list of bindings. -/
def Value.allMapsEntries (p : List Str → Bool) : List (Str × Value) → Bool
  | [] => true
  | (_, v) :: rest => Value.allMaps p v && Value.allMapsEntries p rest
/-- The same for the elements of a sequence. -/
def Value.allMapsSlice (p : List Str → Bool) : List Value → Bool
  | [] => true
  | v :: rest => Value.allMaps p v && Value.allMapsSlice p rest
end

/-- Well-formedness of the representation: the keys of every mapping are
pairwise distinct, as in any Go map. -/
def Value.uniqueKeys (v : Value) : Bool :=
  Value.allMaps (fun ks => decide ks.Nodup) v

/-- No key of any mapping inside the value starts with `pre`. -/
def Value.noKeyStartsWith (pre : Str) (v : Value) : Bool :=
  Value.allMaps (fun ks => ks.all (fun k => !HasPrefix k pre)) v

/-- The inbound renaming in the words of the spec: a key '-'+s becomes
'attr_'+s and every other key is kept. -/
def inboundName : Str → Str
  | '-' :: s => "attr_".toList ++ s
  | k => k

instance : Inhabited Value := ⟨.scalar .null⟩

/-- The prefix a key must not carry for the renaming in direction `isRead` to
be undone by the opposite direction: `attr_` inbound, `-` outbound. -/
def foreignPrefix (isRead : Bool) : Str :=
  if isRead then "attr_".toList else "-".toList

/-! ## Errors, streams, stores and libraries -/

/-- A non-nil Go error, identified by its message. -/
abbrev Error := Str

/-- How a call ends: a return with an `error` result, or a run-time panic. -/
inductive Outcome where
  | returned (err : Option Error)
  | panicked (msg : Str)
deriving DecidableEq

/-- An afero.File used as output stream: a closed file rejects every write. -/
structure File where
  closed : Bool
  data : Str
deriving DecidableEq

/-- The method f.WriteString(s): the new file and the returned error. -/
def File.WriteString (f : File) (s : Str) : File × Option Error :=
  if f.closed then (f, some "file already closed".toList)
  else ({ f with data := f.data ++ s }, none)

/-- The method f.Write(bytes). -/
def File.Write (f : File) (b : Str) : File × Option Error := f.WriteString b

/-- Successive writes of the given texts, stopping at the first that fails: the
new file, the returned error and the writes attempted. -/
def File.writeEach : File → List Str → File × Option Error × List Str
  | f, [] => (f, none, [])
  | f, s :: rest =>
    let w := f.WriteString s
    match w.2 with
    | some err => (w.1, some err, [s])
    | none =>
      let r := File.writeEach w.1 rest
      (r.1, r.2.1, s :: r.2.2)

/-- A *properties.Properties object: its keys in order with their values. -/
abbrev Properties := List (Str × Str)

/-- The method prop.Keys(). -/
def Properties.Keys (p : Properties) : List Str := mapKeys p

/-- The method prop.Get(key). -/
def Properties.Get (p : Properties) (key : Str) : Str × Bool :=
  match mapGet p key with
  | some v => (v, true)
  | none => ([], false)

/-- The store behind an ifacer.Configer, as far as the codecs use it.
`propertier` is `none` when the dynamic type does not implement
ifacer.ConfigForPropertier, and otherwise holds what GetProperties() returns
(`none` for a nil pointer). -/
structure Store where
  AllKeys : List Str
  Get : Str → Value × Option Error
  GetString : Str → Str × Option Error
  propertier : Option (Option Properties)

/-- One operation on the store or on a stream. -/
inductive Event where
  | readFrom
  | allKeys
  | get (key : Str)
  | getString (key : Str)
  | getProperties
  | setProperties
  | write (s : Str)
deriving DecidableEq

/-- One call cfg.Section(sectionName).Key(keyName).SetValue(value) on an ini file. -/
structure IniSet where
  sectionName : Str
  keyName : Str
  value : Str
deriving DecidableEq

/-- A parsed ini file: cfg.Sections() with the name of each section and its
keys (name and value) in order. -/
abbrev IniSections := List (Str × List (Str × Str))

/-- The third-party libraries behind the codecs. -/
structure Libs where
  /-- unicode.ToUpper, applied to each character by strings.ToUpper -/
  ToUpper : Char → Char
  /-- unicode.ToLower, applied to each character by strings.ToLower -/
  ToLower : Char → Char
  /-- fmt.Sprintf("%v", val) -/
  Sprint : Value → Str
  /-- json.MarshalIndent(c, "", "  ") -/
  jsonMarshalIndent : Mapping → Except Error Str
  /-- json.Marshal(c) -/
  jsonMarshal : Mapping → Except Error Str
  /-- toml.TreeFromMap(c) followed by t.String() -/
  tomlTreeString : Mapping → Except Error Str
  /-- yaml.Marshal(c) -/
  yamlMarshal : Mapping → Except Error Str
  /-- hcl.Parse(s), the syntax tree standing for its node -/
  hclParse : Str → Except Error Str
  /-- the text printer.Fprint formats for a node -/
  hclFormat : Str → Except Error Str
  /-- ini.Empty() followed by cfg.Append(bytes) -/
  iniAppend : Str → Except Error IniSections
  /-- the text cfg.WriteTo emits for an empty file after the given calls -/
  iniRender : List IniSet → Str
  /-- properties.Load(bytes, properties.UTF8) -/
  propertiesLoad : Str → Except Error Properties
  /-- p.Set(key, value) -/
  propertiesSet : Properties → Str → Str → Properties × Option Error
  /-- the texts p.WriteComment(f, "#", properties.UTF8) writes before the line
  of a key (its comment lines), one write each -/
  propertiesComment : Properties → Str → List Str
  /-- the line p.WriteComment writes for a key and its value, in one write -/
  propertiesLine : Str → Str → Str
  /-- mv.XmlIndent("", "  ", "root") -/
  xmlIndent : Mapping → Except Error Str

/-- The Go call strings.ToUpper(s). -/
def ToUpper (L : Libs) (s : Str) : Str := s.map L.ToUpper

/-- The Go call strings.ToLower(s). -/
def ToLower (L : Libs) (s : Str) : Str := s.map L.ToLower

/-- What UnmarshalReader leaves behind. -/
structure Decoded where
  out : Outcome
  c : Mapping
  v : Store
  trace : List Event

/-- What MarshalWriter leaves behind. -/
structure Encoded where
  out : Outcome
  c : Mapping
  f : File
  v : Store
  trace : List Event

/-- The end of a loop: its state, the operations performed, and the
return or panic that left it early, if any. -/
structure LoopEnd (σ : Type) where
  state : σ
  trace : List Event
  exit : Option Outcome

/-! ## parsers.go: encoders of the nested formats -/

/-- The method JSONParser.MarshalWriter (lines 59-66). -/
def JSONParser.MarshalWriter (L : Libs) (v : Store) (f : File) (c : Mapping) : Encoded :=
  match L.jsonMarshalIndent c with
  | .error err => ⟨.returned (some err), c, f, v, []⟩
  | .ok b =>
    let w := f.WriteString b
    ⟨.returned w.2, c, w.1, v, [.write b]⟩

/-- The method TOMLParser.MarshalWriter (lines 85-95). -/
def TOMLParser.MarshalWriter (L : Libs) (v : Store) (f : File) (c : Mapping) : Encoded :=
  match L.tomlTreeString c with
  | .error err => ⟨.returned (some err), c, f, v, []⟩
  | .ok s =>
    let w := f.WriteString s
    ⟨.returned w.2, c, w.1, v, [.write s]⟩

/-- The method YAMLParser.MarshalWriter (lines 106-115). -/
def YAMLParser.MarshalWriter (L : Libs) (v : Store) (f : File) (c : Mapping) : Encoded :=
  match L.yamlMarshal c with
  | .error err => ⟨.returned (some err), c, f, v, []⟩
  | .ok b =>
    let w := f.WriteString b
    ⟨.returned w.2, c, w.1, v, [.write b]⟩

/-- The method HCLParser.MarshalWriter (lines 180-194); printer.Fprint formats
the node and writes the text to the file. -/
def HCLParser.MarshalWriter (L : Libs) (v : Store) (f : File) (c : Mapping) : Encoded :=
  match L.jsonMarshal c with
  | .error err => ⟨.returned (some err), c, f, v, []⟩
  | .ok b =>
    match L.hclParse b with
    | .error err => ⟨.returned (some err), c, f, v, []⟩
    | .ok ast =>
      match L.hclFormat ast with
      | .error err => ⟨.returned (some err), c, f, v, []⟩
      | .ok text =>
        let w := f.Write text
        ⟨.returned w.2, c, w.1, v, [.write text]⟩

/-- The header written first by XMLParser.MarshalWriter (line 71). -/
def xmlHeader : Str := "<?xml version=\"1.0\" encoding=\"utf-8\"?>\n".toList

/-- The method XMLParser.MarshalWriter (xml_parser.go lines 60-74): the results
of both calls of f.Write are dropped and the `err` returned at the end is the
one of XmlIndent, nil at that point. -/
def XMLParser.MarshalWriter (L : Libs) (v : Store) (f : File) (c : Mapping) : Encoded :=
  let m := mapOfEntries (c.map (fun e => (e.1, MapInterfaceGetValue e.2 false)))
  match L.xmlIndent m with
  | .error err => ⟨.returned (some err), c, f, v, []⟩
  | .ok bs =>
    let w1 := f.Write xmlHeader
    let w2 := w1.1.Write bs
    ⟨.returned none, c, w2.1, v, [.write xmlHeader, .write bs]⟩

/-! ## parsers.go: the ini codec -/

/-- The value cfg.Section(sectionName).Key(keyName).String() of a parsed file. -/
def iniKeyString (cfg : IniSections) (sectionName keyName : Str) : Str :=
  match mapGet cfg sectionName with
  | some keys => (mapGet keys keyName).getD []
  | none => []

/-- The name ini.v1 files a section under: the empty name stands for the section
DEFAULT. -/
def iniSectionName (name : Str) : Str :=
  if name = [] then "DEFAULT".toList else name

/-- The parts of a section name that end before one of its '.', shortest first. -/
def dotPrefixes : Str → List Str
  | [] => []
  | a :: s => (if a = '.' then [[]] else []) ++ (dotPrefixes s).map (fun p => a :: p)

/-- The parent sections ini.v1 searches for a key missing in a section,
nearest first. -/
def iniParents (name : Str) : List Str :=
  (dotPrefixes name).reverse.map iniSectionName

/-- The value of a key in a section of an ini file, without the search in the
parent sections. -/
def iniLookup (file : IniSections) (sectionName keyName : Str) : Option Str :=
  match mapGet file sectionName with
  | some keys => mapGet keys keyName
  | none => none

/-- The section holding the key that cfg.Section(sectionName).Key(keyName)
returns: the section itself when it holds the key, else the nearest parent
section that holds it, else the section itself, where the key is then created. -/
def iniHolder (file : IniSections) (sectionName keyName : Str) : Str :=
  if (iniLookup file sectionName keyName).isSome then sectionName
  else match (iniParents sectionName).find? (fun a => (iniLookup file a keyName).isSome) with
    | some a => a
    | none => sectionName

/-- The file after cfg.Section(sectionName).Key(keyName).SetValue(value) with a
non-empty keyName: the section is created at the end when missing, and the value
is set on the key found as in `iniHolder`. -/
def iniSetValue (file : IniSections) (e : IniSet) : IniSections :=
  let name := iniSectionName e.sectionName
  let file1 := mapSet file name ((mapGet file name).getD [])
  let holder := iniHolder file1 name e.keyName
  mapSet file1 holder (mapSet ((mapGet file1 holder).getD []) e.keyName e.value)

/-- The file ini.Empty() returns: the section DEFAULT without keys. -/
def iniEmpty : IniSections := [("DEFAULT".toList, [])]

/-- The document handed to cfg.WriteTo after the given calls on ini.Empty(). -/
def iniFileOf (calls : List IniSet) : IniSections :=
  calls.foldl iniSetValue iniEmpty

/-- The value of the entry keyName in the section sectionName of a document. -/
def iniEntry (file : IniSections) (sectionName keyName : Str) : Option Str :=
  iniLookup file (iniSectionName sectionName) keyName

/-- Two calls, the first earlier, of which the second neither overwrites the
entry of the first nor is resolved to it: when they set the same key name, the
section of the first is neither the section of the second nor one of its
parents. -/
def iniApart (e1 e2 : IniSet) : Prop :=
  e1.keyName = e2.keyName →
    iniSectionName e1.sectionName ≠ iniSectionName e2.sectionName ∧
    iniSectionName e1.sectionName ∉ iniParents (iniSectionName e2.sectionName)

/-- The bindings assigned to the target by the two loops of
INIParser.UnmarshalReader (lines 130-138), in order. -/
def INIParser.assignments (cfg : IniSections) : List (Str × Value) :=
  cfg.flatMap (fun sec =>
    sec.2.map (fun key =>
      (sec.1 ++ ".".toList ++ key.1, .scalar (.str (iniKeyString cfg sec.1 key.1)))))

/-- The method INIParser.UnmarshalReader (lines 121-140). -/
def INIParser.UnmarshalReader (L : Libs) (v : Store) (input : Str) (c : Mapping) : Decoded :=
  match L.iniAppend input with
  | .error err => ⟨.returned (some err), c, v, [.readFrom]⟩
  | .ok cfg =>
    ⟨.returned none, (INIParser.assignments cfg).foldl (fun m e => mapSet m e.1 e.2) c, v,
      [.readFrom]⟩

/-- The split of a key in INIParser.MarshalWriter (lines 147-149):
sectionName := key[:lastSep] and keyName := key[lastSep+1:]; `none` is the
panic of an out-of-range slice. -/
def INIParser.split (key : Str) : Option (Str × Str) :=
  let lastSep := LastIndex key '.'
  match sliceTo key lastSep with
  | none => none
  | some sectionName =>
    match sliceFrom key (lastSep + 1) with
    | none => none
    | some keyName => some (sectionName, keyName)

/-- The loop of INIParser.MarshalWriter (lines 145-158) over the remaining
keys; the state is the list of values set in cfg so far.  For an empty keyName
cfg.Section(sectionName).Key(keyName) is nil, ini.v1 creating no key without a
name, and SetValue on it panics (line 157). -/
def INIParser.setAll (v : Store) : List Str → List IniSet → List Event → LoopEnd (List IniSet)
  | [], cfg, tr => ⟨cfg, tr, none⟩
  | key :: rest, cfg, tr =>
    match INIParser.split key with
    | none => ⟨cfg, tr, some (.panicked "slice bounds out of range".toList)⟩
    | some (sectionName, keyName) =>
      let sectionName := if sectionName = "default".toList then [] else sectionName
      let r := v.GetString key
      match r.2 with
      | some err => ⟨cfg, tr ++ [.getString key], some (.returned (some err))⟩
      | none =>
        if keyName = [] then
          ⟨cfg, tr ++ [.getString key],
            some (.panicked "invalid memory address or nil pointer dereference".toList)⟩
        else
          INIParser.setAll v rest (cfg ++ [⟨sectionName, keyName, r.1⟩])
            (tr ++ [.getString key])

/-- The method INIParser.MarshalWriter (lines 141-161): the result of
cfg.WriteTo(f) is dropped.  The text is handed over in one write, recorded also
when it is empty. -/
def INIParser.MarshalWriter (L : Libs) (v : Store) (f : File) (c : Mapping) : Encoded :=
  let l := INIParser.setAll v v.AllKeys [] [.allKeys]
  match l.exit with
  | some o => ⟨o, c, f, v, l.trace⟩
  | none =>
    let s := L.iniRender l.state
    let w := f.WriteString s
    ⟨.returned none, c, w.1, v, l.trace ++ [.write s]⟩

/-! ## parsers.go: the dotenv codec -/

/-- The loop of DOTENVParser.MarshalWriter (lines 216-223); the state is
`lines`.  The test of line 219 is `err == nil`. -/
def DOTENVParser.collect (L : Libs) (v : Store) :
    List Str → List Str → List Event → LoopEnd (List Str)
  | [], lines, tr => ⟨lines, tr, none⟩
  | key :: rest, lines, tr =>
    let envName := ToUpper L (Replace key '.' '_')
    let r := v.Get key
    if r.2 = none then ⟨lines, tr ++ [.get key], some (.returned r.2)⟩
    else
      DOTENVParser.collect L v rest (lines ++ [envName ++ "=".toList ++ L.Sprint r.1])
        (tr ++ [.get key])

/-- The method DOTENVParser.MarshalWriter (lines 214-229). -/
def DOTENVParser.MarshalWriter (L : Libs) (v : Store) (f : File) (c : Mapping) : Encoded :=
  let l := DOTENVParser.collect L v v.AllKeys [] [.allKeys]
  match l.exit with
  | some o => ⟨o, c, f, v, l.trace⟩
  | none =>
    let s := Join l.state "\n".toList
    let w := f.WriteString s
    ⟨.returned w.2, c, w.1, v, l.trace ++ [.write s]⟩

/-! ## Path utilities -/

/-- Modelled from the spec: config_tools.DeepSearch, whose package is not
among the sources (spec 4.1).  Following the segments from the root, a missing
segment gets an empty mapping, a segment bound to a non-mapping value has that
value discarded for a fresh empty mapping, and the mapping reached last is
returned; an empty segment sequence returns the root.  The Go function returns
a reference into the root, so the caller's write through it is passed as `upd`
and the result is the root after the walk and that write. -/
def DeepSearch (m : Mapping) : List Str → (Mapping → Mapping) → Mapping
  | [], upd => upd m
  | k :: rest, upd =>
    match mapGet m k with
    | some (.map m3) => mapSet m k (.map (DeepSearch m3 rest upd))
    | _ => mapSet m k (.map (DeepSearch [] rest upd))

/-- The value target[p1]...[pn] reached from the root through nested
mappings, if every step before the last lands on a mapping. -/
def getAt : Mapping → List Str → Option Value
  | _, [] => none
  | m, [k] => mapGet m k
  | m, k :: k2 :: rest =>
    match mapGet m k with
    | some (.map m2) => getAt m2 (k2 :: rest)
    | _ => none

/-! ## parsers.go: the properties codec -/

/-- The place a properties key is stored at (lines 250-251): the segments of
the key before the last, then the last segment in lower case. -/
def PROPSParser.place (L : Libs) (key : Str) : List Str :=
  let path := Split key '.'
  path.dropLast ++ [ToLower L (path.getLastD [])]

/-- One turn of the loop of PROPSParser.UnmarshalReader (lines 248-254). -/
def PROPSParser.store (L : Libs) (prop : Properties) (c : Mapping) (key : Str) : Mapping :=
  let value := (prop.Get key).1
  let path := Split key '.'
  let lastKey := ToLower L (path.getLastD [])
  DeepSearch c path.dropLast (fun deepestMap => mapSet deepestMap lastKey (.scalar (.str value)))

/-- The method PROPSParser.UnmarshalReader (lines 235-258). -/
def PROPSParser.UnmarshalReader (L : Libs) (vv : Store) (input : Str) (c : Mapping) : Decoded :=
  match vv.propertier with
  | none => ⟨.returned (some "not support properties".toList), c, vv, []⟩
  | some _ =>
    match L.propertiesLoad input with
    | .error err => ⟨.returned (some err), c, vv, [.readFrom]⟩
    | .ok prop =>
      ⟨.returned none, prop.Keys.foldl (PROPSParser.store L prop) c,
        { vv with propertier := some (some prop) }, [.readFrom, .setProperties]⟩

/-- The loop of PROPSParser.MarshalWriter (lines 270-279); the state is the
properties object. -/
def PROPSParser.setAll (L : Libs) (vv : Store) :
    List Str → Properties → List Event → LoopEnd Properties
  | [], p, tr => ⟨p, tr, none⟩
  | key :: rest, p, tr =>
    let r := vv.GetString key
    match r.2 with
    | some err => ⟨p, tr ++ [.getString key], some (.returned (some err))⟩
    | none =>
      let s := L.propertiesSet p key r.1
      match s.2 with
      | some err => ⟨s.1, tr ++ [.getString key], some (.returned (some err))⟩
      | none => PROPSParser.setAll L vv rest s.1 (tr ++ [.getString key])

/-- The writes of p.WriteComment(f, "#", properties.UTF8): for each key in
order its comment lines and then its line; none for an empty set. -/
def PROPSParser.chunks (L : Libs) (p : Properties) : List Str :=
  p.flatMap (fun kv => L.propertiesComment p kv.1 ++ [L.propertiesLine kv.1 kv.2])

/-- The method PROPSParser.MarshalWriter (lines 259-285). -/
def PROPSParser.MarshalWriter (L : Libs) (vv : Store) (f : File) (c : Mapping) : Encoded :=
  match vv.propertier with
  | none => ⟨.returned (some "not support properties".toList), c, f, vv, []⟩
  | some held =>
    let tr0 : List Event :=
      if held.isNone then [.getProperties, .setProperties] else [.getProperties]
    let l := PROPSParser.setAll L vv vv.AllKeys (held.getD []) (tr0 ++ [.allKeys])
    let vv1 : Store := { vv with propertier := some (some l.state) }
    match l.exit with
    | some o => ⟨o, c, f, vv1, l.trace⟩
    | none =>
      let w := f.writeEach (PROPSParser.chunks L l.state)
      ⟨.returned w.2.1, c, w.1, vv1, l.trace ++ w.2.2.map Event.write⟩

/-! ## parsers.go: the registry -/

/-- The codec instances allocated by `init`, one per type. -/
inductive Parser where
  | JSONParser
  | TOMLParser
  | YAMLParser
  | PROPSParser
  | HCLParser
  | DOTENVParser
  | INIParser
  | XMLParser
deriving DecidableEq

/-- The function AddParser (lines 39-43) on the registry map. -/
def AddParser (reg : List (Str × Parser)) (parser : Parser) (names : List Str) :
    List (Str × Parser) :=
  names.foldl (fun r n => mapSet r n parser) reg

/-- The variable SupportedParsers after `init` (lines 26-36). -/
def SupportedParsers : List (Str × Parser) :=
  let r0 : List (Str × Parser) := []
  let r1 := AddParser r0 .JSONParser ["json".toList]
  let r2 := AddParser r1 .TOMLParser ["toml".toList]
  let r3 := AddParser r2 .YAMLParser ["yaml".toList, "yml".toList]
  let r4 := AddParser r3 .PROPSParser ["properties".toList, "props".toList, "prop".toList]
  let r5 := AddParser r4 .HCLParser ["hcl".toList]
  let r6 := AddParser r5 .DOTENVParser ["dotenv".toList, "env".toList]
  let r7 := AddParser r6 .INIParser ["ini".toList]
  AddParser r7 .XMLParser ["xml".toList]

/-- The method MarshalWriter of the Parser interface, by dynamic type. -/
def Parser.MarshalWriter : Parser → Libs → Store → File → Mapping → Encoded
  | .JSONParser => JSONParser.MarshalWriter
  | .TOMLParser => TOMLParser.MarshalWriter
  | .YAMLParser => YAMLParser.MarshalWriter
  | .PROPSParser => PROPSParser.MarshalWriter
  | .HCLParser => HCLParser.MarshalWriter
  | .DOTENVParser => DOTENVParser.MarshalWriter
  | .INIParser => INIParser.MarshalWriter
  | .XMLParser => XMLParser.MarshalWriter

/-! ## Sample data for the worked examples -/

/-- The text of a scalar, as the sample store's GetString and the sample
libraries' Sprint give it. -/
def scalarText : Scalar → Str
  | .str s => s
  | .int n => (toString n).toList
  | .bool b => (toString b).toList
  | .null => "<nil>".toList

/-- A sample layout of an ini document, in the manner of ini.v1 for names and
values that need no quoting: a line [name] before the keys of every section but
a leading DEFAULT, a line key=value per key, a blank line between sections, and
nothing for a leading DEFAULT without keys. -/
def sampleIniText : IniSections → Bool → Str
  | [], _ => []
  | (name, keys) :: rest, first =>
    if first && name = "DEFAULT".toList && keys = [] then sampleIniText rest false
    else
      (if first && name = "DEFAULT".toList then [] else "[".toList ++ name ++ "]\n".toList)
        ++ (keys.flatMap (fun kv => kv.1 ++ "=".toList ++ kv.2 ++ "\n".toList))
        ++ (if rest = [] then [] else "\n".toList)
        ++ sampleIniText rest false

/-- One choice of libraries for the worked examples: ASCII case mapping,
decimal printing of scalars, parsers that yield the given ini file and
properties whatever the input, the sample layout for ini documents, and empty
texts from the other renderers. -/
def sampleLibs (ini : IniSections) (props : Properties) : Libs where
  ToUpper := Char.toUpper
  ToLower := Char.toLower
  Sprint := fun val =>
    match val with
    | .scalar a => scalarText a
    | _ => "<nil>".toList
  jsonMarshalIndent := fun _ => .ok []
  jsonMarshal := fun _ => .ok []
  tomlTreeString := fun _ => .ok []
  yamlMarshal := fun _ => .ok []
  hclParse := fun s => .ok s
  hclFormat := fun s => .ok s
  iniAppend := fun _ => .ok ini
  iniRender := fun calls => sampleIniText (iniFileOf calls) true
  propertiesLoad := fun _ => .ok props
  propertiesSet := fun p key value => (mapSet p key value, none)
  propertiesComment := fun _ _ => []
  propertiesLine := fun key value => key ++ " = ".toList ++ value ++ "\n".toList
  xmlIndent := fun _ => .ok []

/-- A store without the property-set capability that holds the given flat keys;
a getter fails on every other key. -/
def storeOf (kvs : List (Str × Scalar)) (keys : List Str) : Store where
  AllKeys := keys
  Get := fun key =>
    match mapGet kvs key with
    | some a => (.scalar a, none)
    | none => (.scalar .null, some "key not found".toList)
  GetString := fun key =>
    match mapGet kvs key with
    | some a => (scalarText a, none)
    | none => ([], some "key not found".toList)
  propertier := none

/-- The store of the dotenv example: the key db.max_conns with the value 5. -/
def envStore : Store := storeOf [("db.max_conns".toList, .int 5)] ["db.max_conns".toList]

/-- The store of the ini example. -/
def iniStore : Store :=
  storeOf [("default.host".toList, .str "localhost".toList), ("db.user".toList, .str "root".toList)]
    ["default.host".toList, "db.user".toList]

/-- A store that lists the key a and whose getters fail on it. -/
def failingStore : Store := storeOf [] ["a".toList]

/-- A store whose single key a. is dotted and read without error, with nothing
after the '.'. -/
def emptyLeafStore : Store := storeOf [("a.".toList, .str "v".toList)] ["a.".toList]

/-- A store listing the undotted key host after the dotted key db.user. -/
def undottedStore : Store :=
  storeOf [("db.user".toList, .str "root".toList), ("host".toList, .str "h".toList)]
    ["db.user".toList, "host".toList]

/-- A closed output stream. -/
def closedFile : File := ⟨true, []⟩

/-- An open, empty output stream. -/
def openFile : File := ⟨false, []⟩

/-- The entry the spec describes for a flattened key: the leaf is the part of
the key after its last '.', the section is the part before it, and the section
default stands for no section. -/
def IniPlaced (v : Store) (key : Str) (e : IniSet) : Prop :=
  ∃ sec leaf : Str, key = sec ++ '.' :: leaf ∧ '.' ∉ leaf ∧
    e = ⟨if sec = "default".toList then [] else sec, leaf, (v.GetString key).1⟩

/-- The mapping bound to a key, or the empty mapping when the key is unbound or
bound to a value that is not a mapping. -/
def subMap (m : Mapping) (k : Str) : Mapping :=
  match mapGet m k with
  | some (.map m3) => m3
  | _ => []

/-- The parsed ini file of the input "[db]\nuser=root": the empty DEFAULT
section every file has, and the section db holding user=root. -/
def iniParsed : IniSections :=
  [("DEFAULT".toList, []), ("db".toList, [("user".toList, "root".toList)])]

/-- A loaded properties file with the keys a.b and a.C. -/
def propsLoaded : Properties := [("a.b".toList, "1".toList), ("a.C".toList, "2".toList)]

/-- A store that implements ConfigForPropertier and holds no properties yet. -/
def propsStore : Store := { envStore with propertier := some none }

/-- An XML-shaped value with an attribute at two levels. -/
def sampleMarked : Value :=
  .map [("-id".toList, .scalar (.int 7)),
        ("item".toList, .slice [.map [("-lang".toList, .scalar (.str "go".toList))],
                                .scalar (.bool true)])]

/-- The canonical form of `sampleMarked`. -/
def sampleCanonical : Value :=
  .map [("attr_id".toList, .scalar (.int 7)),
        ("item".toList, .slice [.map [("attr_lang".toList, .scalar (.str "go".toList))],
                                .scalar (.bool true)])]

/-- A mapping holding an attribute key and the canonical name it is renamed to. -/
def collidingKeys : Mapping :=
  [("-id".toList, .scalar (.int 1)), ("attr_id".toList, .scalar (.int 2))]

/-- The twelve names registered by `init`. -/
def registeredNames : List Str :=
  ["json".toList, "toml".toList, "yaml".toList, "yml".toList, "properties".toList,
   "props".toList, "prop".toList, "hcl".toList, "dotenv".toList, "env".toList,
   "ini".toList, "xml".toList]

/-! ## Lemmas on maps and on the key renaming -/

theorem hasPrefix_iff (k p : Str) : HasPrefix k p = true ↔ ∃ s, k = p ++ s := by
  unfold HasPrefix
  rw [List.isPrefixOf_iff_prefix]
  constructor
  · rintro ⟨s, hs⟩; exact ⟨s, hs.symm⟩
  · rintro ⟨s, hs⟩; exact ⟨s, hs.symm⟩

theorem renameKey_true (k : Str) :
    renameKey true k = if HasPrefix k "-".toList then "attr_".toList ++ k.drop 1 else k := by
  simp [renameKey]

theorem renameKey_false (k : Str) :
    renameKey false k = if HasPrefix k "attr_".toList then "-".toList ++ k.drop 5 else k := by
  simp [renameKey]

theorem renameKey_undo (isRead : Bool) (k : Str) (h : HasPrefix k (foreignPrefix isRead) = false) :
    renameKey (!isRead) (renameKey isRead k) = k := by
  cases isRead
  · simp only [foreignPrefix, Bool.false_eq_true, if_false] at h
    simp only [Bool.not_false, renameKey_true, renameKey_false]
    by_cases hp : HasPrefix k "attr_".toList = true
    · obtain ⟨s, rfl⟩ := (hasPrefix_iff _ _).1 hp
      simp [HasPrefix]
    · simp_all
  · simp only [foreignPrefix, if_true] at h
    simp only [Bool.not_true, renameKey_true, renameKey_false]
    by_cases hp : HasPrefix k "-".toList = true
    · obtain ⟨s, rfl⟩ := (hasPrefix_iff _ _).1 hp
      simp [HasPrefix]
    · simp_all


theorem mapGet_mapSet_same {β : Type} (m : List (Str × β)) (k : Str) (v : β) :
    mapGet (mapSet m k v) k = some v := by
  induction m with
  | nil => simp [mapSet, mapGet]
  | cons e rest ih =>
    obtain ⟨k0, v0⟩ := e
    by_cases h : k0 = k
    · simp [mapSet, mapGet, h]
    · simp [mapSet, mapGet, h, ih]

theorem mapGet_mapSet_ne {β : Type} (m : List (Str × β)) (k k2 : Str) (v : β) (h : k2 ≠ k) :
    mapGet (mapSet m k v) k2 = mapGet m k2 := by
  have h2 : ¬ k = k2 := fun e => h e.symm
  induction m with
  | nil => simp [mapSet, mapGet, h2]
  | cons e rest ih =>
    obtain ⟨k0, v0⟩ := e
    by_cases h0 : k0 = k
    · subst h0
      simp [mapSet, mapGet, h2]
    · by_cases h4 : k0 = k2
      · subst h4
        simp [mapSet, mapGet, h0]
      · simp [mapSet, mapGet, h0, h4, ih]

theorem mapSet_of_not_mem {β : Type} (m : List (Str × β)) (k : Str) (v : β)
    (h : k ∉ mapKeys m) : mapSet m k v = m ++ [(k, v)] := by
  induction m with
  | nil => rfl
  | cons e rest ih =>
    obtain ⟨k0, v0⟩ := e
    simp only [mapKeys, List.map_cons, List.mem_cons, not_or] at h
    have hne : ¬ k0 = k := fun heq => h.1 heq.symm
    simp only [mapSet, hne, if_false, List.cons_append]
    rw [ih h.2]

theorem foldl_mapSet_of_nodup {β : Type} (es acc : List (Str × β))
    (h : (mapKeys (acc ++ es)).Nodup) :
    es.foldl (fun m e => mapSet m e.1 e.2) acc = acc ++ es := by
  induction es generalizing acc with
  | nil => simp
  | cons e rest ih =>
    have hk : e.1 ∉ mapKeys acc := by
      simp only [mapKeys, List.map_append, List.map_cons] at h
      have := (List.nodup_append.1 h).2.2
      intro hmem
      exact this hmem (List.mem_cons_self _ _)
    simp only [List.foldl_cons]
    rw [mapSet_of_not_mem acc e.1 e.2 hk, ih]
    · simp
    · simpa using h

theorem mapOfEntries_of_nodup {β : Type} (es : List (Str × β)) (h : (mapKeys es).Nodup) :
    mapOfEntries es = es := by
  have := foldl_mapSet_of_nodup es [] (by simpa using h)
  simpa [mapOfEntries] using this

theorem mapKeys_rangeMap (kvs : List (Str × Value)) (isRead : Bool) :
    mapKeys (rangeMap kvs isRead) = (mapKeys kvs).map (renameKey isRead) := by
  induction kvs with
  | nil => simp [rangeMap, mapKeys]
  | cons e rest ih =>
    obtain ⟨k, v⟩ := e
    simp only [rangeMap, mapKeys, List.map_cons] at ih ⊢
    rw [ih]

theorem nodup_renamed (isRead : Bool) (ks : List Str) (hn : ks.Nodup)
    (hp : ∀ k ∈ ks, HasPrefix k (foreignPrefix isRead) = false) :
    (ks.map (renameKey isRead)).Nodup := by
  refine List.Nodup.map_on ?_ hn
  intro x hx y hy hxy
  have := congrArg (renameKey (!isRead)) hxy
  rwa [renameKey_undo isRead x (hp x hx), renameKey_undo isRead y (hp y hy)] at this

mutual
theorem roundTrip_value (isRead : Bool) : ∀ v : Value,
    v.uniqueKeys = true → v.noKeyStartsWith (foreignPrefix isRead) = true →
    MapInterfaceGetValue (MapInterfaceGetValue v isRead) (!isRead) = v
  | .scalar a, _, _ => by simp [MapInterfaceGetValue]
  | .slice xs, hu, hp => by
    simp only [MapInterfaceGetValue]
    rw [roundTrip_slice isRead xs (by simpa [Value.uniqueKeys, Value.allMaps] using hu)
      (by simpa [Value.noKeyStartsWith, Value.allMaps] using hp)]
  | .map kvs, hu, hp => by
    simp only [Value.uniqueKeys, Value.allMaps, Bool.and_eq_true, decide_eq_true_eq] at hu
    simp only [Value.noKeyStartsWith, Value.allMaps, Bool.and_eq_true] at hp
    have hpk : ∀ k ∈ mapKeys kvs, HasPrefix k (foreignPrefix isRead) = false := by
      intro k hk
      have := (List.all_eq_true.1 hp.1) k hk
      simpa using this
    have h1 : mapOfEntries (rangeMap kvs isRead) = rangeMap kvs isRead :=
      mapOfEntries_of_nodup _ (by
        rw [mapKeys_rangeMap]; exact nodup_renamed isRead _ hu.1 hpk)
    simp only [MapInterfaceGetValue, h1]
    rw [roundTrip_entries isRead kvs hu.2 hp.2 hpk, mapOfEntries_of_nodup _ hu.1]
theorem roundTrip_entries (isRead : Bool) : ∀ kvs : List (Str × Value),
    Value.allMapsEntries (fun ks => decide ks.Nodup) kvs = true →
    Value.allMapsEntries (fun ks => ks.all (fun k => !HasPrefix k (foreignPrefix isRead))) kvs = true →
    (∀ k ∈ mapKeys kvs, HasPrefix k (foreignPrefix isRead) = false) →
    rangeMap (rangeMap kvs isRead) (!isRead) = kvs
  | [], _, _, _ => by simp [rangeMap]
  | (k, v) :: rest, hu, hp, hk => by
    simp only [Value.allMapsEntries, Bool.and_eq_true] at hu hp
    simp only [rangeMap]
    rw [roundTrip_value isRead v hu.1 hp.1, roundTrip_entries isRead rest hu.2 hp.2
      (fun k2 hk2 => hk k2 (List.mem_cons_of_mem _ hk2)),
      renameKey_undo isRead k (hk k (List.mem_cons_self _ _))]
theorem roundTrip_slice (isRead : Bool) : ∀ xs : List Value,
    Value.allMapsSlice (fun ks => decide ks.Nodup) xs = true →
    Value.allMapsSlice (fun ks => ks.all (fun k => !HasPrefix k (foreignPrefix isRead))) xs = true →
    rangeSlice (rangeSlice xs isRead) (!isRead) = xs
  | [], _, _ => by simp [rangeSlice]
  | v :: rest, hu, hp => by
    simp only [Value.allMapsSlice, Bool.and_eq_true] at hu hp
    simp only [rangeSlice]
    rw [roundTrip_value isRead v hu.1 hp.1, roundTrip_slice isRead rest hu.2 hp.2]
end

/-! ## The value normaliser -/

/-- C1: normalising inbound and then outbound gives back every value that only
uses the marker convention, that is, in which no key of any mapping starts with
attr_ (the keys of each mapping being pairwise distinct, as in a Go map); and the
mapping with keys -id and name gets the keys attr_id and name inbound and is
restored outbound. -/
theorem roundTrip_inbound_outbound (v : Value) (hu : v.uniqueKeys = true)
    (hm : v.noKeyStartsWith "attr_".toList = true) :
    MapInterfaceGetValue (MapInterfaceGetValue v true) false = v ∧
    ∀ x y : Scalar,
      MapInterfaceGetValue (.map [("-id".toList, .scalar x), ("name".toList, .scalar y)]) true
        = .map [("attr_id".toList, .scalar x), ("name".toList, .scalar y)] ∧
      MapInterfaceGetValue (.map [("attr_id".toList, .scalar x), ("name".toList, .scalar y)]) false
        = .map [("-id".toList, .scalar x), ("name".toList, .scalar y)] := by
  refine ⟨roundTrip_value true v hu hm, fun x y => ⟨?_, ?_⟩⟩
  · simp [MapInterfaceGetValue, rangeMap, mapOfEntries, mapSet, renameKey, HasPrefix]
  · simp [MapInterfaceGetValue, rangeMap, mapOfEntries, mapSet, renameKey, HasPrefix]

/-- The round trip of C1 on a nested value with an attribute at two levels. -/
theorem roundTrip_inbound_outbound_witness :
    sampleMarked.uniqueKeys = true ∧ sampleMarked.noKeyStartsWith "attr_".toList = true ∧
    MapInterfaceGetValue (MapInterfaceGetValue sampleMarked true) false = sampleMarked :=
  ⟨by decide, by decide, (roundTrip_inbound_outbound sampleMarked (by decide) (by decide)).1⟩

/-- C2: normalising outbound and then inbound gives back every canonical value
of the attr_ convention, that is, in which no key of any mapping starts with the
marker - (the keys of each mapping being pairwise distinct, as in a Go map). -/
theorem roundTrip_outbound_inbound (v : Value) (hu : v.uniqueKeys = true)
    (hm : v.noKeyStartsWith "-".toList = true) :
    MapInterfaceGetValue (MapInterfaceGetValue v false) true = v :=
  roundTrip_value false v hu hm

/-- The round trip of C2 on a nested canonical value. -/
theorem roundTrip_outbound_inbound_witness :
    sampleCanonical.uniqueKeys = true ∧ sampleCanonical.noKeyStartsWith "-".toList = true ∧
    MapInterfaceGetValue (MapInterfaceGetValue sampleCanonical false) true = sampleCanonical :=
  ⟨by decide, by decide, roundTrip_outbound_inbound sampleCanonical (by decide) (by decide)⟩

/-- Outside the hypothesis of C1 the round trip is lost: a key attr_x that is
not an attribute comes back as -x. -/
theorem roundTrip_inbound_outbound_needs_marker :
    MapInterfaceGetValue (MapInterfaceGetValue
      (.map [("attr_x".toList, .scalar (.int 1))]) true) false
      = .map [("-x".toList, .scalar (.int 1))] := by
  simp [MapInterfaceGetValue, rangeMap, mapOfEntries, mapSet, renameKey, HasPrefix]

/-- Outside the hypothesis of C2 the round trip is lost: a key -x comes back as
attr_x. -/
theorem roundTrip_outbound_inbound_needs_canonical :
    MapInterfaceGetValue (MapInterfaceGetValue
      (.map [("-x".toList, .scalar (.int 1))]) false) true
      = .map [("attr_x".toList, .scalar (.int 1))] := by
  simp [MapInterfaceGetValue, rangeMap, mapOfEntries, mapSet, renameKey, HasPrefix]

theorem renameKey_true_eq_inboundName (k : Str) : renameKey true k = inboundName k := by
  rw [renameKey_true]
  cases k with
  | nil => simp [HasPrefix, inboundName]
  | cons a s =>
    by_cases h : a = '-'
    · subst h; simp [HasPrefix, inboundName]
    · have : inboundName (a :: s) = a :: s := by
        unfold inboundName
        split
        · rename_i heq; injection heq with h1 _; exact absurd h1 h
        · rfl
      have h2 : ¬ '-' = a := fun e => h e.symm
      simp [HasPrefix, h2, this]

theorem rangeMap_eq_map (kvs : List (Str × Value)) (isRead : Bool) :
    rangeMap kvs isRead
      = kvs.map (fun e => (renameKey isRead e.1, MapInterfaceGetValue e.2 isRead)) := by
  induction kvs with
  | nil => simp [rangeMap]
  | cons e rest ih => obtain ⟨k, v⟩ := e; simp [rangeMap, ih]

theorem rangeSlice_eq_map (xs : List Value) (isRead : Bool) :
    rangeSlice xs isRead = xs.map (fun x => MapInterfaceGetValue x isRead) := by
  induction xs with
  | nil => simp [rangeSlice]
  | cons x rest ih => simp [rangeSlice, ih]

/-- C9 as stated fails on a mapping that holds both -id and attr_id: both keys
are renamed to attr_id and the result has a single binding, so in either
iteration order one of the two bindings is not found, renamed or kept, with its
normalised value. -/
theorem normalize_mapping_collision :
    (mapKeys collidingKeys).Nodup ∧
    (∃ res, MapInterfaceGetValue (.map collidingKeys) true = .map res ∧ res.length = 1 ∧
      ¬ ∀ e ∈ collidingKeys,
          mapGet res (inboundName e.1) = some (MapInterfaceGetValue e.2 true)) ∧
    (∃ res, MapInterfaceGetValue (.map collidingKeys.reverse) true = .map res ∧ res.length = 1 ∧
      ¬ ∀ e ∈ collidingKeys.reverse,
          mapGet res (inboundName e.1) = some (MapInterfaceGetValue e.2 true)) := by
  refine ⟨by decide, ⟨[("attr_id".toList, .scalar (.int 2))], ?_, rfl, ?_⟩,
    ⟨[("attr_id".toList, .scalar (.int 1))], ?_, rfl, ?_⟩⟩
  · simp [collidingKeys, MapInterfaceGetValue, rangeMap, mapOfEntries, mapSet, renameKey,
      HasPrefix]
  · intro h
    have := h ("-id".toList, .scalar (.int 1)) (by simp [collidingKeys])
    simp [inboundName, mapGet, MapInterfaceGetValue] at this
  · simp [collidingKeys, MapInterfaceGetValue, rangeMap, mapOfEntries, mapSet, renameKey,
      HasPrefix]
  · intro h
    have := h ("attr_id".toList, .scalar (.int 2)) (by simp [collidingKeys])
    simp [inboundName, mapGet, MapInterfaceGetValue] at this

/-- C9 amended: in either direction a scalar is returned unchanged and a
sequence becomes the sequence of the normalised elements, in order and of the
same length; inbound, a mapping whose keys stay pairwise distinct under the
renaming (it does not hold both '-'+s and 'attr_'+s) becomes the mapping in which
every key '-'+s is renamed to 'attr_'+s, every other key is kept, and every value
is normalised. -/
theorem normalize_shape (kvs : List (Str × Value))
    (h : ((mapKeys kvs).map inboundName).Nodup) :
    (∀ (a : Scalar) (isRead : Bool),
      MapInterfaceGetValue (.scalar a) isRead = .scalar a) ∧
    (∀ (xs : List Value) (isRead : Bool),
      MapInterfaceGetValue (.slice xs) isRead
        = .slice (xs.map (fun x => MapInterfaceGetValue x isRead)) ∧
      (xs.map (fun x => MapInterfaceGetValue x isRead)).length = xs.length) ∧
    MapInterfaceGetValue (.map kvs) true
      = .map (kvs.map (fun e => (inboundName e.1, MapInterfaceGetValue e.2 true))) ∧
    (∀ s : Str, inboundName ('-' :: s) = "attr_".toList ++ s) ∧
    (∀ k : Str, HasPrefix k "-".toList = false → inboundName k = k) := by
  refine ⟨fun a r => by simp [MapInterfaceGetValue], fun xs r => ⟨?_, by simp⟩, ?_,
    fun s => rfl, ?_⟩
  · simp [MapInterfaceGetValue, rangeSlice_eq_map]
  · have e : rangeMap kvs true
        = kvs.map (fun e => (inboundName e.1, MapInterfaceGetValue e.2 true)) := by
      rw [rangeMap_eq_map]
      simp [renameKey_true_eq_inboundName]
    simp only [MapInterfaceGetValue, e]
    rw [mapOfEntries_of_nodup]
    simpa [mapKeys, List.map_map, Function.comp_def] using h
  · intro k hk
    have hk2 : HasPrefix k ['-'] = false := hk
    rw [← renameKey_true_eq_inboundName, renameKey_true]
    simp [hk2]

/-- The mapping clause of C9 on the mapping with the keys -id and name. -/
theorem normalize_shape_witness :
    ((mapKeys [("-id".toList, Value.scalar (.int 7)),
        ("name".toList, .slice [.scalar (.bool true)])]).map inboundName).Nodup ∧
    MapInterfaceGetValue (.map [("-id".toList, .scalar (.int 7)),
        ("name".toList, .slice [.scalar (.bool true)])]) true
      = .map [("attr_id".toList, .scalar (.int 7)),
          ("name".toList, .slice [.scalar (.bool true)])] :=
  ⟨by decide, by
    have h := (normalize_shape [("-id".toList, .scalar (.int 7)),
        ("name".toList, .slice [.scalar (.bool true)])] (by decide)).2.2.1
    simpa [inboundName, MapInterfaceGetValue, rangeSlice] using h⟩

/-! ## The registry -/

theorem mapGet_isSome_iff {β : Type} (m : List (Str × β)) (k : Str) :
    (mapGet m k).isSome = true ↔ k ∈ mapKeys m := by
  induction m with
  | nil => simp [mapGet, mapKeys]
  | cons e rest ih =>
    obtain ⟨k0, v0⟩ := e
    by_cases h : k0 = k
    · simp only [mapGet, h, if_true, mapKeys, List.map_cons, List.mem_cons, true_or,
        Option.isSome_some]
    · have h2 : ¬ k = k0 := fun e => h e.symm
      simp only [mapGet, h, if_false, ih]
      simp only [mapKeys, List.map_cons, List.mem_cons, h2, false_or]

/-- C3: after `init` the registry binds exactly the twelve names json, toml,
yaml, yml, properties, props, prop, hcl, dotenv, env, ini, xml; the aliases of
one format are bound to the same codec instance; lookup is an exact,
case-sensitive match, so that every other name, such as toon or YAML, is absent. -/
theorem supportedParsers_contents :
    mapKeys SupportedParsers = registeredNames ∧
    registeredNames.Nodup ∧ registeredNames.length = 12 ∧
    (∀ n : Str, (mapGet SupportedParsers n).isSome = true ↔ n ∈ registeredNames) ∧
    (∀ n : Str, n ∉ registeredNames → mapGet SupportedParsers n = none) ∧
    mapGet SupportedParsers "json".toList = some .JSONParser ∧
    mapGet SupportedParsers "toml".toList = some .TOMLParser ∧
    mapGet SupportedParsers "yaml".toList = some .YAMLParser ∧
    mapGet SupportedParsers "yml".toList = mapGet SupportedParsers "yaml".toList ∧
    mapGet SupportedParsers "properties".toList = some .PROPSParser ∧
    mapGet SupportedParsers "props".toList = mapGet SupportedParsers "properties".toList ∧
    mapGet SupportedParsers "prop".toList = mapGet SupportedParsers "properties".toList ∧
    mapGet SupportedParsers "hcl".toList = some .HCLParser ∧
    mapGet SupportedParsers "dotenv".toList = some .DOTENVParser ∧
    mapGet SupportedParsers "env".toList = mapGet SupportedParsers "dotenv".toList ∧
    mapGet SupportedParsers "ini".toList = some .INIParser ∧
    mapGet SupportedParsers "xml".toList = some .XMLParser ∧
    mapGet SupportedParsers "toon".toList = none ∧
    mapGet SupportedParsers "YAML".toList = none := by
  have hk : mapKeys SupportedParsers = registeredNames := by decide
  have hiff : ∀ n : Str, (mapGet SupportedParsers n).isSome = true ↔ n ∈ registeredNames := by
    intro n; rw [mapGet_isSome_iff, hk]
  refine ⟨hk, by decide, rfl, hiff, ?_, by decide, by decide, by decide, by decide, by decide,
    by decide, by decide, by decide, by decide, by decide, by decide, by decide, by decide,
    by decide⟩
  intro n hn
  have := (hiff n).not.2 hn
  simpa using this

/-! ## The properties codec without the capability -/

/-- C4: on a store that does not implement ConfigForPropertier, both
PROPSParser.UnmarshalReader and PROPSParser.MarshalWriter return a non-nil
error, whatever the input stream and the target mapping, and do nothing else:
the target mapping and the store are unchanged, no operation on the store or on
a stream is performed, and the output stream is unchanged. -/
theorem props_capability_mismatch (L : Libs) (vv : Store) (input : Str) (f : File)
    (c : Mapping) (h : vv.propertier = none) :
    (∃ err, (PROPSParser.UnmarshalReader L vv input c).out = .returned (some err)) ∧
    (PROPSParser.UnmarshalReader L vv input c).c = c ∧
    (PROPSParser.UnmarshalReader L vv input c).v = vv ∧
    (PROPSParser.UnmarshalReader L vv input c).trace = [] ∧
    (∃ err, (PROPSParser.MarshalWriter L vv f c).out = .returned (some err)) ∧
    (PROPSParser.MarshalWriter L vv f c).c = c ∧
    (PROPSParser.MarshalWriter L vv f c).f = f ∧
    (PROPSParser.MarshalWriter L vv f c).v = vv ∧
    (PROPSParser.MarshalWriter L vv f c).trace = [] := by
  simp [PROPSParser.UnmarshalReader, PROPSParser.MarshalWriter, h]

/-- C4 on the sample store, which lacks the capability, with a non-empty input
and an open stream. -/
theorem props_capability_mismatch_witness :
    envStore.propertier = none ∧
    (∃ err, (PROPSParser.UnmarshalReader (sampleLibs [] [("a".toList, "1".toList)]) envStore
      "a=1".toList []).out = .returned (some err)) ∧
    (PROPSParser.MarshalWriter (sampleLibs [] []) envStore openFile []).f = openFile :=
  ⟨rfl,
   (props_capability_mismatch (sampleLibs [] [("a".toList, "1".toList)]) envStore "a=1".toList
      openFile [] rfl).1,
   (props_capability_mismatch (sampleLibs [] []) envStore [] openFile [] rfl).2.2.2.2.2.2.1⟩

/-! ## The dotenv encoder -/

theorem dotenv_returns_on_first_success (L : Libs) (v : Store) (f : File) (c : Mapping)
    (key : Str) (rest : List Str) (hk : v.AllKeys = key :: rest) (hg : (v.Get key).2 = none) :
    DOTENVParser.MarshalWriter L v f c = ⟨.returned none, c, f, v, [.allKeys, .get key]⟩ := by
  simp [DOTENVParser.MarshalWriter, DOTENVParser.collect, hk, hg]

/-- C5 fails on the code: for the store holding the single key db.max_conns with
the value 5, whose Get succeeds, DOTENVParser.MarshalWriter returns nil after the
first Get and performs no write, so the stream is unchanged; the line the claim
expects is DB_MAX_CONNS=5. -/
theorem dotenv_encode_writes_nothing (L : Libs) (f : File) (c : Mapping) :
    envStore.AllKeys = ["db.max_conns".toList] ∧
    envStore.Get "db.max_conns".toList = (.scalar (.int 5), none) ∧
    (DOTENVParser.MarshalWriter L envStore f c).out = .returned none ∧
    (DOTENVParser.MarshalWriter L envStore f c).f = f ∧
    (DOTENVParser.MarshalWriter L envStore f c).trace
      = [.allKeys, .get "db.max_conns".toList] ∧
    ToUpper (sampleLibs [] []) (Replace "db.max_conns".toList '.' '_') ++ "=".toList
        ++ (sampleLibs [] []).Sprint (.scalar (.int 5)) = "DB_MAX_CONNS=5".toList := by
  have h := dotenv_returns_on_first_success L envStore f c "db.max_conns".toList [] rfl rfl
  refine ⟨rfl, rfl, ?_, ?_, ?_, by decide⟩
  · rw [h]
  · rw [h]
  · rw [h]

/-! ## Errors dropped by the encoders -/

theorem write_closed (f : File) (s : Str) (h : f.closed = true) :
    f.WriteString s = (f, some "file already closed".toList) := by
  simp [File.WriteString, h]

/-- The encoders of JSON, TOML, YAML, HCL and properties return the error of a
failed write. -/
theorem siblings_return_write_error (L : Libs) (v : Store) (f : File) (c : Mapping)
    (h : f.closed = true) :
    (∀ b, L.jsonMarshalIndent c = .ok b →
      (JSONParser.MarshalWriter L v f c).out = .returned (some "file already closed".toList)) ∧
    (∀ b, L.tomlTreeString c = .ok b →
      (TOMLParser.MarshalWriter L v f c).out = .returned (some "file already closed".toList)) ∧
    (∀ b, L.yamlMarshal c = .ok b →
      (YAMLParser.MarshalWriter L v f c).out = .returned (some "file already closed".toList)) ∧
    (∀ b ast text, L.jsonMarshal c = .ok b → L.hclParse b = .ok ast →
      L.hclFormat ast = .ok text →
      (HCLParser.MarshalWriter L v f c).out = .returned (some "file already closed".toList)) ∧
    (∀ held, v.propertier = some held →
      (∀ tr, (PROPSParser.setAll L v v.AllKeys (held.getD []) tr).exit = none ∧
        (PROPSParser.setAll L v v.AllKeys (held.getD []) tr).state ≠ []) →
      (PROPSParser.MarshalWriter L v f c).out
        = .returned (some "file already closed".toList)) := by
  refine ⟨fun b hb => ?_, fun b hb => ?_, fun b hb => ?_, fun b ast text hb ha ht => ?_,
    fun held hv hall => ?_⟩
  · simp [JSONParser.MarshalWriter, hb, write_closed f b h]
  · simp [TOMLParser.MarshalWriter, hb, write_closed f b h]
  · simp [YAMLParser.MarshalWriter, hb, write_closed f b h]
  · simp [HCLParser.MarshalWriter, hb, ha, ht, File.Write, write_closed f text h]
  · simp only [PROPSParser.MarshalWriter, hv, (hall _).1]
    have hne := (hall ((if held.isNone then [Event.getProperties, Event.setProperties]
      else [Event.getProperties]) ++ [Event.allKeys])).2
    generalize (PROPSParser.setAll L v v.AllKeys (held.getD [])
      ((if held.isNone then [Event.getProperties, Event.setProperties]
        else [Event.getProperties]) ++ [Event.allKeys])).state = p at hne ⊢
    cases p with
    | nil => exact absurd rfl hne
    | cons kv rest =>
      cases hc : L.propertiesComment (kv :: rest) kv.1 with
      | nil => simp [PROPSParser.chunks, hc, File.writeEach, write_closed f _ h]
      | cons x xs => simp [PROPSParser.chunks, hc, File.writeEach, write_closed f _ h]

/-- C7 fails on the code: XMLParser.MarshalWriter and INIParser.MarshalWriter
return nil although every write to the closed stream fails, and
DOTENVParser.MarshalWriter returns nil although Get returns an error. -/
theorem marshalWriter_swallows_errors (L : Libs) :
    (∀ (v : Store) (c : Mapping) (bs : Str),
      L.xmlIndent (mapOfEntries (c.map (fun e => (e.1, MapInterfaceGetValue e.2 false))))
        = .ok bs →
      (closedFile.Write xmlHeader).2 ≠ none ∧ (closedFile.Write bs).2 ≠ none ∧
      (Parser.MarshalWriter .XMLParser L v closedFile c).out = .returned none) ∧
    ((Parser.MarshalWriter .XMLParser (sampleLibs [] []) envStore closedFile []).out
      = .returned none) ∧
    ((closedFile.WriteString (L.iniRender
        [⟨[], "host".toList, "localhost".toList⟩, ⟨"db".toList, "user".toList, "root".toList⟩])).2
        ≠ none ∧
      (Parser.MarshalWriter .INIParser L iniStore closedFile []).trace
        = [.allKeys, .getString "default.host".toList, .getString "db.user".toList,
           .write (L.iniRender [⟨[], "host".toList, "localhost".toList⟩,
             ⟨"db".toList, "user".toList, "root".toList⟩])] ∧
      (Parser.MarshalWriter .INIParser L iniStore closedFile []).out = .returned none) ∧
    ((failingStore.Get "a".toList).2 ≠ none ∧
      (Parser.MarshalWriter .DOTENVParser L failingStore openFile []).trace
        = [.allKeys, .get "a".toList,
           .write (ToUpper L "a".toList ++ "=".toList ++ L.Sprint (.scalar .null))] ∧
      (Parser.MarshalWriter .DOTENVParser L failingStore openFile []).out = .returned none) := by
  refine ⟨fun v c bs hbs => ⟨by simp [File.Write, File.WriteString, closedFile],
      by simp [File.Write, File.WriteString, closedFile], ?_⟩, ?_, ⟨?_, ?_, ?_⟩, ⟨?_, ?_, ?_⟩⟩
  · simp only [Parser.MarshalWriter, XMLParser.MarshalWriter, hbs]
  · rfl
  · simp [File.WriteString, closedFile]
  · rfl
  · rfl
  · simp [failingStore, storeOf, mapGet]
  · rfl
  · rfl

/-! ## The ini encoder -/

theorem lastIndex_of_not_mem (s : Str) (c : Char) (h : c ∉ s) : LastIndex s c = -1 := by
  induction s with
  | nil => rfl
  | cons a s ih =>
    simp only [List.mem_cons, not_or] at h
    have hne : ¬ a = c := fun e => h.1 e.symm
    simp [LastIndex, ih h.2, hne]

theorem lastIndex_append (pre post : Str) (c : Char) (h : c ∉ post) :
    LastIndex (pre ++ c :: post) c = (pre.length : Int) := by
  induction pre with
  | nil => simp [LastIndex, lastIndex_of_not_mem post c h]
  | cons a pre ih =>
    have h0 : (0 : Int) ≤ (pre.length : Int) := Int.ofNat_nonneg _
    simp [LastIndex, ih, h0]

theorem exists_last_split (s : Str) (c : Char) (h : c ∈ s) :
    ∃ pre post, s = pre ++ c :: post ∧ c ∉ post := by
  induction s with
  | nil => simp at h
  | cons a s ih =>
    by_cases hs : c ∈ s
    · obtain ⟨pre, post, he, hp⟩ := ih hs
      exact ⟨a :: pre, post, by rw [he]; rfl, hp⟩
    · have : c = a := by
        rcases List.mem_cons.1 h with h1 | h1
        · exact h1
        · exact absurd h1 hs
      exact ⟨[], s, by rw [this]; rfl, hs⟩

theorem split_of_last (pre post : Str) (h : '.' ∉ post) :
    INIParser.split (pre ++ '.' :: post) = some (pre, post) := by
  have h1 := lastIndex_append pre post '.' h
  simp only [INIParser.split, h1]
  have a1 : sliceTo (pre ++ '.' :: post) (pre.length : Int) = some pre := by
    have hle : (0 : Int) ≤ (pre.length : Int) ∧
        (pre.length : Int) ≤ ((pre ++ '.' :: post).length : Int) := by
      constructor
      · omega
      · simp only [List.length_append, List.length_cons]; omega
    unfold sliceTo
    rw [if_pos hle]
    simp
  have a2 : sliceFrom (pre ++ '.' :: post) ((pre.length : Int) + 1) = some post := by
    have : ((pre.length : Int) + 1).toNat = pre.length + 1 := by omega
    unfold sliceFrom
    have hle : (0 : Int) ≤ (pre.length : Int) + 1 ∧
        (pre.length : Int) + 1 ≤ ((pre ++ '.' :: post).length : Int) := by
      constructor
      · omega
      · simp only [List.length_append, List.length_cons]; omega
    rw [if_pos hle, this]
    simp
  simp [a1, a2]

theorem split_of_not_mem (key : Str) (h : '.' ∉ key) : INIParser.split key = none := by
  simp [INIParser.split, lastIndex_of_not_mem key '.' h, sliceTo]

theorem split_isSome_iff (key : Str) : (INIParser.split key).isSome = true ↔ '.' ∈ key := by
  constructor
  · intro h
    by_contra hn
    rw [split_of_not_mem key hn] at h
    simp at h
  · intro h
    obtain ⟨pre, post, he, hp⟩ := exists_last_split key '.' h
    rw [he, split_of_last pre post hp]
    rfl

theorem leaf_ne_nil (pre post : Str) (h : (pre ++ '.' :: post).getLast? ≠ some '.') :
    post ≠ [] := by
  intro e
  apply h
  rw [e]
  simp

theorem setAll_dotted (v : Store) (keys : List Str) (cfg : List IniSet) (tr : List Event)
    (hdot : ∀ key ∈ keys, '.' ∈ key) (hleaf : ∀ key ∈ keys, key.getLast? ≠ some '.')
    (hget : ∀ key ∈ keys, (v.GetString key).2 = none) :
    ∃ es, INIParser.setAll v keys cfg tr
        = ⟨cfg ++ es, tr ++ keys.map Event.getString, none⟩ ∧
      List.Forall₂ (IniPlaced v) keys es := by
  induction keys generalizing cfg tr with
  | nil => exact ⟨[], by simp [INIParser.setAll], List.Forall₂.nil⟩
  | cons key rest ih =>
    obtain ⟨pre, post, he, hp⟩ := exists_last_split key '.' (hdot key (List.mem_cons_self _ _))
    have hs : INIParser.split key = some (pre, post) := by rw [he]; exact split_of_last pre post hp
    have hg := hget key (List.mem_cons_self _ _)
    have hl : post ≠ [] := leaf_ne_nil pre post (he ▸ hleaf key (List.mem_cons_self _ _))
    obtain ⟨es, h1, h2⟩ := ih
      (cfg ++ [⟨if pre = "default".toList then [] else pre, post, (v.GetString key).1⟩])
      (tr ++ [.getString key])
      (fun k hk => hdot k (List.mem_cons_of_mem _ hk))
      (fun k hk => hleaf k (List.mem_cons_of_mem _ hk))
      (fun k hk => hget k (List.mem_cons_of_mem _ hk))
    refine ⟨⟨if pre = "default".toList then [] else pre, post, (v.GetString key).1⟩ :: es,
      ?_, List.Forall₂.cons ⟨pre, post, he, hp, rfl⟩ h2⟩
    simp only [INIParser.setAll, hs, hg, hl, if_false]
    rw [h1]
    simp

theorem setAll_undotted (v : Store) (pre : List Str) (key : Str) (post : List Str)
    (cfg : List IniSet) (tr : List Event)
    (hpre : ∀ k ∈ pre, '.' ∈ k ∧ k.getLast? ≠ some '.' ∧ (v.GetString k).2 = none)
    (hkey : '.' ∉ key) :
    ∃ es, INIParser.setAll v (pre ++ key :: post) cfg tr
        = ⟨cfg ++ es, tr ++ pre.map Event.getString,
            some (.panicked "slice bounds out of range".toList)⟩ := by
  induction pre generalizing cfg tr with
  | nil =>
    exact ⟨[], by simp [INIParser.setAll, split_of_not_mem key hkey]⟩
  | cons k rest ih =>
    obtain ⟨hd, hlf, hg⟩ := hpre k (List.mem_cons_self _ _)
    obtain ⟨p, q, he, hp⟩ := exists_last_split k '.' hd
    have hs : INIParser.split k = some (p, q) := by rw [he]; exact split_of_last p q hp
    have hl : q ≠ [] := leaf_ne_nil p q (he ▸ hlf)
    obtain ⟨es, h1⟩ := ih
      (cfg ++ [⟨if p = "default".toList then [] else p, q, (v.GetString k).1⟩])
      (tr ++ [.getString k])
      (fun k2 hk2 => hpre k2 (List.mem_cons_of_mem _ hk2))
    refine ⟨⟨if p = "default".toList then [] else p, q, (v.GetString k).1⟩ :: es, ?_⟩
    simp only [List.cons_append, INIParser.setAll, hs, hg, hl, if_false, List.append_eq]
    rw [h1]
    simp

theorem setAll_aborts (v : Store) (pre : List Str) (key : Str) (post : List Str)
    (cfg : List IniSet) (tr : List Event)
    (hpre : ∀ k ∈ pre, '.' ∈ k ∧ (v.GetString k).2 = none) (hkey : '.' ∉ key) :
    ∃ st tr2 msg, INIParser.setAll v (pre ++ key :: post) cfg tr
        = ⟨st, tr2, some (.panicked msg)⟩ := by
  induction pre generalizing cfg tr with
  | nil =>
    exact ⟨cfg, tr, "slice bounds out of range".toList, by
      simp [INIParser.setAll, split_of_not_mem key hkey]⟩
  | cons k rest ih =>
    obtain ⟨hd, hg⟩ := hpre k (List.mem_cons_self _ _)
    obtain ⟨p, q, he, hp⟩ := exists_last_split k '.' hd
    have hs : INIParser.split k = some (p, q) := by rw [he]; exact split_of_last p q hp
    by_cases hl : q = []
    · exact ⟨cfg, tr ++ [.getString k],
        "invalid memory address or nil pointer dereference".toList, by
        simp only [List.cons_append, INIParser.setAll, hs, hg, hl, if_true]⟩
    · obtain ⟨st, tr2, msg, h1⟩ := ih
        (cfg ++ [⟨if p = "default".toList then [] else p, q, (v.GetString k).1⟩])
        (tr ++ [.getString k])
        (fun k2 hk2 => hpre k2 (List.mem_cons_of_mem _ hk2))
      refine ⟨st, tr2, msg, ?_⟩
      simp only [List.cons_append, INIParser.setAll, hs, hg, hl, if_false, List.append_eq]
      rw [h1]

/-! ### The document built by the calls -/

theorem mem_dotPrefixes (s p : Str) : p ∈ dotPrefixes s ↔ ∃ t, s = p ++ '.' :: t := by
  induction s generalizing p with
  | nil => simp [dotPrefixes]
  | cons a s ih =>
    simp only [dotPrefixes, List.mem_append, List.mem_map]
    constructor
    · rintro (h | ⟨p2, hp2, rfl⟩)
      · by_cases ha : a = '.'
        · simp only [ha, if_true, List.mem_singleton] at h
          exact ⟨s, by rw [h, ha]; rfl⟩
        · simp [ha] at h
      · obtain ⟨t, ht⟩ := (ih p2).1 hp2
        exact ⟨t, by rw [ht]; rfl⟩
    · rintro ⟨t, ht⟩
      cases p with
      | nil =>
        left
        simp only [List.nil_append, List.cons.injEq] at ht
        simp [ht.1]
      | cons b p2 =>
        right
        simp only [List.cons_append, List.cons.injEq] at ht
        exact ⟨p2, (ih p2).2 ⟨t, ht.2⟩, by rw [ht.1]⟩

theorem mem_iniParents (s a : Str) :
    a ∈ iniParents s ↔ ∃ p t, s = p ++ '.' :: t ∧ iniSectionName p = a := by
  simp only [iniParents, List.mem_map, List.mem_reverse, mem_dotPrefixes]
  constructor
  · rintro ⟨p, ⟨t, ht⟩, hp⟩; exact ⟨p, t, ht, hp⟩
  · rintro ⟨p, t, ht, hp⟩; exact ⟨p, ⟨t, ht⟩, hp⟩

theorem iniLookup_section (file : IniSections) (name s2 k2 : Str) :
    iniLookup (mapSet file name ((mapGet file name).getD [])) s2 k2 = iniLookup file s2 k2 := by
  by_cases h : s2 = name
  · subst h
    simp only [iniLookup, mapGet_mapSet_same]
    cases mapGet file s2 with
    | none => simp [mapGet]
    | some keys => simp
  · simp only [iniLookup, mapGet_mapSet_ne _ _ _ _ h]

theorem iniLookup_set (file : IniSections) (holder k value s2 k2 : Str) :
    iniLookup (mapSet file holder (mapSet ((mapGet file holder).getD []) k value)) s2 k2
      = if s2 = holder ∧ k2 = k then some value else iniLookup file s2 k2 := by
  by_cases h : s2 = holder
  · subst h
    simp only [iniLookup, mapGet_mapSet_same, true_and]
    by_cases hk : k2 = k
    · subst hk
      simp [mapGet_mapSet_same]
    · simp only [hk, if_false, mapGet_mapSet_ne _ _ _ _ hk]
      cases mapGet file s2 with
      | none => simp [mapGet]
      | some keys => simp
  · simp only [iniLookup, mapGet_mapSet_ne _ _ _ _ h, h, false_and, if_false]

theorem iniLookup_setValue (file : IniSections) (e : IniSet) (s2 k2 : Str) :
    iniLookup (iniSetValue file e) s2 k2
      = if s2 = iniHolder (mapSet file (iniSectionName e.sectionName)
            ((mapGet file (iniSectionName e.sectionName)).getD []))
            (iniSectionName e.sectionName) e.keyName ∧ k2 = e.keyName
        then some e.value else iniLookup file s2 k2 := by
  simp only [iniSetValue]
  rw [iniLookup_set, iniLookup_section]

theorem iniHolder_direct (file : IniSections) (done : List IniSet) (e : IniSet)
    (h1 : ∀ s k, (iniLookup file s k).isSome = true →
      ∃ c ∈ done, iniSectionName c.sectionName = s ∧ c.keyName = k)
    (hap : ∀ c ∈ done, iniApart c e) :
    iniHolder (mapSet file (iniSectionName e.sectionName)
        ((mapGet file (iniSectionName e.sectionName)).getD []))
      (iniSectionName e.sectionName) e.keyName = iniSectionName e.sectionName := by
  have hno : ∀ a, (a = iniSectionName e.sectionName ∨ a ∈ iniParents (iniSectionName e.sectionName)) →
      (iniLookup (mapSet file (iniSectionName e.sectionName)
        ((mapGet file (iniSectionName e.sectionName)).getD [])) a e.keyName).isSome = false := by
    intro a ha
    rw [iniLookup_section]
    by_contra hc
    have hc2 : (iniLookup file a e.keyName).isSome = true := by
      cases hv : (iniLookup file a e.keyName).isSome with
      | true => rfl
      | false => exact absurd hv hc
    obtain ⟨c, hc3, hs, hk⟩ := h1 a e.keyName hc2
    have := hap c hc3 hk
    rcases ha with ha | ha
    · exact this.1 (hs.trans ha)
    · exact this.2 (hs ▸ ha)
  unfold iniHolder
  rw [hno _ (Or.inl rfl)]
  have hf : (iniParents (iniSectionName e.sectionName)).find?
      (fun a => (iniLookup (mapSet file (iniSectionName e.sectionName)
        ((mapGet file (iniSectionName e.sectionName)).getD [])) a e.keyName).isSome) = none := by
    rw [List.find?_eq_none]
    intro a ha
    simp [hno a (Or.inr ha)]
  simp [hf]

theorem iniFile_entries (calls : List IniSet) (file : IniSections) (done : List IniSet)
    (h1 : ∀ s k, (iniLookup file s k).isSome = true →
      ∃ c ∈ done, iniSectionName c.sectionName = s ∧ c.keyName = k)
    (h2 : ∀ c ∈ done, iniLookup file (iniSectionName c.sectionName) c.keyName = some c.value)
    (hp : List.Pairwise iniApart (done ++ calls)) :
    ∀ c ∈ done ++ calls,
      iniLookup (calls.foldl iniSetValue file) (iniSectionName c.sectionName) c.keyName
        = some c.value := by
  induction calls generalizing file done with
  | nil => simpa using h2
  | cons e rest ih =>
    have hp2 := List.pairwise_append.1 hp
    have hap : ∀ c ∈ done, iniApart c e := fun c hc => hp2.2.2 c hc e (List.mem_cons_self _ _)
    have hh := iniHolder_direct file done e h1 hap
    have hl : ∀ s2 k2, iniLookup (iniSetValue file e) s2 k2
        = if s2 = iniSectionName e.sectionName ∧ k2 = e.keyName then some e.value
          else iniLookup file s2 k2 := by
      intro s2 k2
      rw [iniLookup_setValue, hh]
    have key := ih (iniSetValue file e) (done ++ [e]) ?_ ?_ (by simpa using hp)
    · intro c hc
      exact key c (by simpa using hc)
    · intro s k hs
      rw [hl] at hs
      by_cases hc : s = iniSectionName e.sectionName ∧ k = e.keyName
      · exact ⟨e, by simp, hc.1.symm, hc.2.symm⟩
      · rw [if_neg hc] at hs
        obtain ⟨c, hc1, hc2⟩ := h1 s k hs
        exact ⟨c, by simp [hc1], hc2⟩
    · intro c hc
      rw [hl]
      rcases List.mem_append.1 hc with hc | hc
      · by_cases hcc : iniSectionName c.sectionName = iniSectionName e.sectionName ∧
            c.keyName = e.keyName
        · exact absurd hcc.1 (hap c hc hcc.2).1
        · rw [if_neg hcc]; exact h2 c hc
      · have : c = e := by simpa using hc
        subst this
        simp

theorem iniFileOf_entries (calls : List IniSet) (hp : List.Pairwise iniApart calls) :
    ∀ e ∈ calls, iniEntry (iniFileOf calls) e.sectionName e.keyName = some e.value := by
  have := iniFile_entries calls iniEmpty [] (by
    intro s k hs
    simp [iniLookup, iniEmpty, mapGet] at hs
    split at hs <;> simp_all [mapGet]) (by simp) (by simpa using hp)
  intro e he
  exact this e (by simpa using he)

/-- C6 as stated fails on the code: the key a. contains a '.' and GetString
succeeds on it, yet INIParser.MarshalWriter does not return: the part after the
last '.' is empty, cfg.Section(a).Key("") is nil and SetValue panics; nothing is
written. -/
theorem ini_encode_empty_leaf_panics :
    (∀ key ∈ emptyLeafStore.AllKeys, '.' ∈ key) ∧
    (∀ key ∈ emptyLeafStore.AllKeys, (emptyLeafStore.GetString key).2 = none) ∧
    INIParser.split "a.".toList = some ("a".toList, []) ∧
    (INIParser.MarshalWriter (sampleLibs [] []) emptyLeafStore openFile []).out
      = .panicked "invalid memory address or nil pointer dereference".toList ∧
    (INIParser.MarshalWriter (sampleLibs [] []) emptyLeafStore openFile []).out
      ≠ .returned none ∧
    (INIParser.MarshalWriter (sampleLibs [] []) emptyLeafStore openFile []).f = openFile := by
  refine ⟨by decide, by decide, by decide, rfl, ?_, rfl⟩
  have h : (INIParser.MarshalWriter (sampleLibs [] []) emptyLeafStore openFile []).out
      = .panicked "invalid memory address or nil pointer dereference".toList := rfl
  rw [h]
  exact fun e => Outcome.noConfusion e

/-- C6 amended: when every key of the flattened key list contains a '.', does
not end in one (the part after its last '.' is not empty) and GetString succeeds
on each, INIParser.MarshalWriter returns nil and performs, for each key in
order, cfg.Section(section).Key(leaf).SetValue(GetString(key)), the leaf being
the part of the key after its last '.' and the section the part before it, the
section default standing for no section; in the document handed to cfg.WriteTo
the entry leaf=GetString(key) stands in that section, provided no two keys have
the same leaf with the section of the earlier being the section of the later or
one of its parents.  The keys default.host and db.user with the values localhost
and root give host=localhost in the default section, emitted unsectioned, and
user=root in the section db. -/
theorem ini_encode_sectioning (L : Libs) (v : Store) (f : File) (c : Mapping)
    (hdot : ∀ key ∈ v.AllKeys, '.' ∈ key)
    (hleaf : ∀ key ∈ v.AllKeys, key.getLast? ≠ some '.')
    (hget : ∀ key ∈ v.AllKeys, (v.GetString key).2 = none) :
    (INIParser.MarshalWriter L v f c).out = .returned none ∧
    (∃ cfg, (INIParser.setAll v v.AllKeys [] [.allKeys]).state = cfg ∧
      List.Forall₂ (IniPlaced v) v.AllKeys cfg ∧
      (INIParser.MarshalWriter L v f c).f = (f.WriteString (L.iniRender cfg)).1 ∧
      (List.Pairwise iniApart cfg →
        ∀ e ∈ cfg, iniEntry (iniFileOf cfg) e.sectionName e.keyName = some e.value)) ∧
    (INIParser.setAll iniStore iniStore.AllKeys [] [.allKeys]).state
      = [⟨[], "host".toList, "localhost".toList⟩,
         ⟨"db".toList, "user".toList, "root".toList⟩] ∧
    iniFileOf [⟨[], "host".toList, "localhost".toList⟩,
        ⟨"db".toList, "user".toList, "root".toList⟩]
      = [("DEFAULT".toList, [("host".toList, "localhost".toList)]),
         ("db".toList, [("user".toList, "root".toList)])] := by
  obtain ⟨es, h1, h2⟩ := setAll_dotted v v.AllKeys [] [.allKeys] hdot hleaf hget
  refine ⟨?_, ⟨es, ?_, h2, ?_, iniFileOf_entries es⟩, rfl, by decide⟩
  · simp [INIParser.MarshalWriter, h1]
  · simp [h1]
  · simp [INIParser.MarshalWriter, h1]

/-- The amended C6 on the store with the keys default.host and db.user: the
document holds host=localhost in the default section and user=root in db, and
in the sample layout the text starts with the line host=localhost and holds the
line user=root under the header of db. -/
theorem ini_encode_sectioning_witness :
    (∀ key ∈ iniStore.AllKeys, '.' ∈ key) ∧
    (∀ key ∈ iniStore.AllKeys, key.getLast? ≠ some '.') ∧
    (∀ key ∈ iniStore.AllKeys, (iniStore.GetString key).2 = none) ∧
    (INIParser.MarshalWriter (sampleLibs [] []) iniStore openFile []).out = .returned none ∧
    iniEntry (iniFileOf (INIParser.setAll iniStore iniStore.AllKeys [] [.allKeys]).state)
      "default".toList "host".toList = none ∧
    iniEntry (iniFileOf (INIParser.setAll iniStore iniStore.AllKeys [] [.allKeys]).state)
      [] "host".toList = some "localhost".toList ∧
    iniEntry (iniFileOf (INIParser.setAll iniStore iniStore.AllKeys [] [.allKeys]).state)
      "db".toList "user".toList = some "root".toList ∧
    "host=localhost\n".toList
      <+: (INIParser.MarshalWriter (sampleLibs [] []) iniStore openFile []).f.data ∧
    "[db]\nuser=root\n".toList
      <:+: (INIParser.MarshalWriter (sampleLibs [] []) iniStore openFile []).f.data :=
  ⟨by decide, by decide, by decide,
   (ini_encode_sectioning (sampleLibs [] []) iniStore openFile [] (by decide) (by decide)
      (by decide)).1,
   by decide, by decide, by decide, by decide, by decide⟩

/-- C10: the split of a key in INIParser.MarshalWriter is in bounds exactly
when the key contains a '.'; for a key without one, LastIndex gives -1, the
slice key[:-1] is out of range, and a call whose earlier keys are dotted and
read without error panics: it returns no error and leaves the stream untouched;
when moreover none of the earlier keys ends in '.', the panic is the one of the
slice of this key, raised before GetString is called on it. -/
theorem ini_split_in_bounds (key : Str) :
    ((INIParser.split key).isSome = true ↔ '.' ∈ key) ∧
    ('.' ∉ key →
      LastIndex key '.' = -1 ∧ sliceTo key (LastIndex key '.') = none ∧
      ∀ (L : Libs) (v : Store) (f : File) (c : Mapping) (pre post : List Str),
        v.AllKeys = pre ++ key :: post →
        (∀ k ∈ pre, '.' ∈ k ∧ (v.GetString k).2 = none) →
        ((∃ msg, (INIParser.MarshalWriter L v f c).out = .panicked msg) ∧
          (INIParser.MarshalWriter L v f c).f = f) ∧
        ((∀ k ∈ pre, k.getLast? ≠ some '.') →
          (INIParser.MarshalWriter L v f c).out
              = .panicked "slice bounds out of range".toList ∧
            (INIParser.MarshalWriter L v f c).trace
              = .allKeys :: pre.map Event.getString)) := by
  refine ⟨split_isSome_iff key, fun hkey => ?_⟩
  have hl := lastIndex_of_not_mem key '.' hkey
  refine ⟨hl, by simp [hl, sliceTo], ?_⟩
  intro L v f c pre post hk hpre
  constructor
  · obtain ⟨st, tr2, msg, h1⟩ := setAll_aborts v pre key post [] [.allKeys] hpre hkey
    exact ⟨⟨msg, by simp [INIParser.MarshalWriter, hk, h1]⟩,
      by simp [INIParser.MarshalWriter, hk, h1]⟩
  · intro hleaf
    obtain ⟨es, h1⟩ := setAll_undotted v pre key post [] [.allKeys]
      (fun k hk2 => ⟨(hpre k hk2).1, hleaf k hk2, (hpre k hk2).2⟩) hkey
    simp [INIParser.MarshalWriter, hk, h1]

/-- C10 on the key host, listed after the dotted key db.user. -/
theorem ini_split_in_bounds_witness :
    '.' ∉ "host".toList ∧
    INIParser.split "host".toList = none ∧
    undottedStore.AllKeys = ["db.user".toList] ++ "host".toList :: [] ∧
    (∀ k ∈ ["db.user".toList], '.' ∈ k ∧ (undottedStore.GetString k).2 = none) ∧
    (∀ k ∈ ["db.user".toList], k.getLast? ≠ some '.') ∧
    (INIParser.MarshalWriter (sampleLibs [] []) undottedStore openFile []).out
      = .panicked "slice bounds out of range".toList :=
  ⟨by decide, by decide, rfl, by decide, by decide,
   ((((ini_split_in_bounds "host".toList).2 (by decide)).2.2 (sampleLibs [] [])
      undottedStore openFile [] ["db.user".toList] [] rfl (by decide)).2 (by decide)).1⟩

/-! ## Decoding the flat formats -/

theorem mapGet_foldl_of_not_mem {β : Type} (es c : List (Str × β)) (k : Str)
    (h : k ∉ mapKeys es) :
    mapGet (es.foldl (fun m e => mapSet m e.1 e.2) c) k = mapGet c k := by
  induction es generalizing c with
  | nil => rfl
  | cons e rest ih =>
    simp only [mapKeys, List.map_cons, List.mem_cons, not_or] at h
    simp only [List.foldl_cons]
    rw [ih _ h.2, mapGet_mapSet_ne _ _ _ _ h.1]

theorem mapGet_foldl_last {β : Type} (pre post c : List (Str × β)) (k : Str) (w : β)
    (h : k ∉ mapKeys post) :
    mapGet ((pre ++ (k, w) :: post).foldl (fun m e => mapSet m e.1 e.2) c) k = some w := by
  rw [List.foldl_append, List.foldl_cons, mapGet_foldl_of_not_mem _ _ _ h, mapGet_mapSet_same]

theorem getAt_nil (q : List Str) : getAt [] q = none := by
  cases q with
  | nil => rfl
  | cons k rest =>
    cases rest with
    | nil => rfl
    | cons k2 rest2 => simp [getAt, mapGet]

theorem getAt_cons (m : Mapping) (k : Str) (rest : List Str) (h : rest ≠ []) :
    getAt m (k :: rest) = getAt (subMap m k) rest := by
  cases rest with
  | nil => exact absurd rfl h
  | cons k2 rest2 =>
    simp only [getAt, subMap]
    split
    · rfl
    · rw [getAt_nil]

theorem getAt_congr (m m2 : Mapping) (k : Str) (rest : List Str)
    (h : mapGet m k = mapGet m2 k) : getAt m (k :: rest) = getAt m2 (k :: rest) := by
  cases rest with
  | nil => simpa [getAt] using h
  | cons k2 rest2 => simp [getAt, h]

theorem deepSearch_cons (m : Mapping) (k : Str) (rest : List Str) (upd : Mapping → Mapping) :
    DeepSearch m (k :: rest) upd = mapSet m k (.map (DeepSearch (subMap m k) rest upd)) := by
  simp only [DeepSearch, subMap]
  split <;> rfl

theorem subMap_mapSet (m d : Mapping) (k : Str) : subMap (mapSet m k (.map d)) k = d := by
  simp [subMap, mapGet_mapSet_same]

theorem getAt_deepSearch_same (m : Mapping) (path : List Str) (leaf : Str) (val : Value) :
    getAt (DeepSearch m path (fun d => mapSet d leaf val)) (path ++ [leaf]) = some val := by
  induction path generalizing m with
  | nil => simp [DeepSearch, getAt, mapGet_mapSet_same]
  | cons k rest ih =>
    have hne : rest ++ [leaf] ≠ [] := by simp
    rw [List.cons_append, getAt_cons _ _ _ hne, deepSearch_cons, subMap_mapSet, ih]

theorem getAt_deepSearch_frame (m : Mapping) (path : List Str) (leaf : Str) (val : Value)
    (q : List Str) (h1 : ¬ q <+: path ++ [leaf]) (h2 : ¬ path ++ [leaf] <+: q) :
    getAt (DeepSearch m path (fun d => mapSet d leaf val)) q = getAt m q := by
  induction path generalizing m q with
  | nil =>
    cases q with
    | nil => exact absurd (List.nil_prefix) h1
    | cons k2 q2 =>
      have hne : k2 ≠ leaf := by
        intro e
        apply h2
        rw [e]
        exact ⟨q2, rfl⟩
      exact getAt_congr _ _ _ _ (mapGet_mapSet_ne _ _ _ _ hne)
  | cons k rest ih =>
    cases q with
    | nil => exact absurd (List.nil_prefix) h1
    | cons k2 q2 =>
      rw [deepSearch_cons]
      by_cases hk : k2 = k
      · subst hk
        have h1b : ¬ q2 <+: rest ++ [leaf] := by
          intro hp; apply h1
          simpa [List.cons_append] using (List.prefix_cons_inj k2).2 hp
        have h2b : ¬ rest ++ [leaf] <+: q2 := by
          intro hp; apply h2
          simpa [List.cons_append] using (List.prefix_cons_inj k2).2 hp
        have hq : q2 ≠ [] := by
          intro e; apply h1b; rw [e]; exact List.nil_prefix
        rw [getAt_cons _ _ _ hq, getAt_cons _ _ _ hq, subMap_mapSet, ih _ q2 h1b h2b]
      · exact getAt_congr _ _ _ _ (mapGet_mapSet_ne _ _ _ _ hk)

theorem split_no_sep (a : Str) (c : Char) (h : c ∉ a) : Split a c = [a] := by
  induction a with
  | nil => rfl
  | cons x a ih =>
    simp only [List.mem_cons, not_or] at h
    have hne : ¬ x = c := fun e => h.1 e.symm
    simp [Split, hne, ih h.2]

theorem split_append_sep (a t : Str) (c : Char) (h : c ∉ a) :
    Split (a ++ c :: t) c = a :: Split t c := by
  induction a with
  | nil => simp [Split]
  | cons x a ih =>
    simp only [List.mem_cons, not_or] at h
    have hne : ¬ x = c := fun e => h.1 e.symm
    simp [Split, hne, ih h.2]

theorem split_join (segs : List Str) (c : Char) (hne : segs ≠ [])
    (h : ∀ s ∈ segs, c ∉ s) : Split (Join segs [c]) c = segs := by
  induction segs with
  | nil => exact absurd rfl hne
  | cons a rest ih =>
    cases rest with
    | nil => simpa [Join] using split_no_sep a c (h a (List.mem_cons_self _ _))
    | cons b rest2 =>
      have hr := ih (by simp) (fun s hs => h s (List.mem_cons_of_mem _ hs))
      simp only [Join, List.append_assoc, List.singleton_append]
      rw [split_append_sep _ _ _ (h a (List.mem_cons_self _ _)), hr]

theorem place_join (L : Libs) (ps : List Str) (k : Str) (h : ∀ s ∈ ps ++ [k], '.' ∉ s) :
    PROPSParser.place L (Join (ps ++ [k]) ".".toList) = ps ++ [ToLower L k] := by
  have hs : Split (Join (ps ++ [k]) ['.']) '.' = ps ++ [k] := split_join _ _ (by simp) h
  have e : ".".toList = ['.'] := rfl
  simp [PROPSParser.place, e, hs]

theorem store_eq (L : Libs) (prop : Properties) (c : Mapping) (q : Str) :
    PROPSParser.store L prop c q
      = DeepSearch c (Split q '.').dropLast
          (fun d => mapSet d (ToLower L ((Split q '.').getLastD [])) (.scalar (.str (prop.Get q).1))) :=
  rfl

theorem place_eq (L : Libs) (q : Str) :
    PROPSParser.place L q = (Split q '.').dropLast ++ [ToLower L ((Split q '.').getLastD [])] :=
  rfl

theorem getAt_store_same (L : Libs) (prop : Properties) (c : Mapping) (q : Str) :
    getAt (PROPSParser.store L prop c q) (PROPSParser.place L q)
      = some (.scalar (.str (prop.Get q).1)) := by
  rw [store_eq, place_eq, getAt_deepSearch_same]

theorem getAt_store_frame (L : Libs) (prop : Properties) (c : Mapping) (q : Str)
    (p : List Str) (h1 : ¬ p <+: PROPSParser.place L q) (h2 : ¬ PROPSParser.place L q <+: p) :
    getAt (PROPSParser.store L prop c q) p = getAt c p := by
  rw [store_eq]
  rw [place_eq] at h1 h2
  exact getAt_deepSearch_frame _ _ _ _ _ h1 h2

theorem getAt_foldl_frame (L : Libs) (prop : Properties) (post : List Str) (c : Mapping)
    (p : List Str)
    (h : ∀ q ∈ post, ¬ PROPSParser.place L q <+: p ∧ ¬ p <+: PROPSParser.place L q) :
    getAt (post.foldl (PROPSParser.store L prop) c) p = getAt c p := by
  induction post generalizing c with
  | nil => rfl
  | cons q rest ih =>
    have hq := h q (List.mem_cons_self _ _)
    rw [List.foldl_cons, ih _ (fun q2 hq2 => h q2 (List.mem_cons_of_mem _ hq2)),
      getAt_store_frame L prop c q p hq.2 hq.1]

theorem mapKeys_mapSet {β : Type} (m : List (Str × β)) (k : Str) (v : β) (x : Str)
    (h : x ∈ mapKeys (mapSet m k v)) : x = k ∨ x ∈ mapKeys m := by
  induction m with
  | nil =>
    simp only [mapSet, mapKeys, List.map_cons, List.map_nil, List.mem_singleton] at h
    exact Or.inl h
  | cons e rest ih =>
    obtain ⟨k0, v0⟩ := e
    by_cases h0 : k0 = k
    · simp only [mapSet, h0, if_true, mapKeys, List.map_cons, List.mem_cons] at h ⊢
      rcases h with h | h
      · exact Or.inl h
      · exact Or.inr (Or.inr h)
    · simp only [mapSet, h0, if_false, mapKeys, List.map_cons, List.mem_cons] at h ⊢
      rcases h with h | h
      · exact Or.inr (Or.inl h)
      · rcases ih h with h | h
        · exact Or.inl h
        · exact Or.inr (Or.inr h)

theorem mapKeys_store (L : Libs) (prop : Properties) (c : Mapping) (q : Str) (x : Str)
    (h : x ∈ mapKeys (PROPSParser.store L prop c q)) :
    x ∈ mapKeys c ∨ (PROPSParser.place L q).head? = some x := by
  rw [store_eq] at h
  rw [place_eq]
  cases hd : (Split q '.').dropLast with
  | nil =>
    rw [hd] at h
    simp only [DeepSearch] at h
    rcases mapKeys_mapSet _ _ _ _ h with h | h
    · right; simp [h]
    · exact Or.inl h
  | cons k rest =>
    rw [hd, deepSearch_cons] at h
    rcases mapKeys_mapSet _ _ _ _ h with h | h
    · right; simp [h]
    · exact Or.inl h

theorem mapKeys_foldl_store (L : Libs) (prop : Properties) (keys : List Str) (c : Mapping)
    (x : Str) (h : x ∈ mapKeys (keys.foldl (PROPSParser.store L prop) c)) :
    x ∈ mapKeys c ∨ ∃ q ∈ keys, (PROPSParser.place L q).head? = some x := by
  induction keys generalizing c with
  | nil => exact Or.inl h
  | cons q rest ih =>
    rw [List.foldl_cons] at h
    rcases ih _ h with h | ⟨q2, hq2, h⟩
    · rcases mapKeys_store L prop c q x h with h | h
      · exact Or.inl h
      · exact Or.inr ⟨q, List.mem_cons_self _ _, h⟩
    · exact Or.inr ⟨q2, List.mem_cons_of_mem _ hq2, h⟩

/-- C8 as stated fails for the ini codec: decoding a file whose section db holds
user=root binds the single key db.user at the root of the target, and nothing is
bound to db, so that target[db][user] does not exist. -/
theorem ini_decode_stores_flat :
    iniKeyString iniParsed "db".toList "user".toList = "root".toList ∧
    (INIParser.UnmarshalReader (sampleLibs iniParsed []) envStore "[db]\nuser=root".toList []).out
      = .returned none ∧
    (INIParser.UnmarshalReader (sampleLibs iniParsed []) envStore "[db]\nuser=root".toList []).c
      = [("db.user".toList, .scalar (.str "root".toList))] ∧
    getAt (INIParser.UnmarshalReader (sampleLibs iniParsed []) envStore
      "[db]\nuser=root".toList []).c ["db.user".toList] = some (.scalar (.str "root".toList)) ∧
    getAt (INIParser.UnmarshalReader (sampleLibs iniParsed []) envStore
      "[db]\nuser=root".toList []).c ["db".toList, "user".toList] = none ∧
    mapGet (INIParser.UnmarshalReader (sampleLibs iniParsed []) envStore
      "[db]\nuser=root".toList []).c "db".toList = none :=
  ⟨rfl, rfl, rfl, rfl, rfl, rfl⟩

/-- C8 amended.  The ini codec binds the value of every key of every section at
the root of the target, under the single flat key section+'.'+key (when the flat
keys of the file are pairwise distinct; in general the last binding of a flat
key stands).  The properties codec, on a store with the capability and a file
that loads, stores the value of the key p1.….pn.k under the lower-cased leaf in
the nested mapping reached through p1..pn, each step being a mapping, provided
no later key of the file is stored at a place that is a prefix or an extension of
this one; and every root key of the target afterwards was a root key before or
is the first segment of the place of a key of the file. -/
theorem flat_decode_placement (L : Libs) (v : Store) (input : Str) (c : Mapping) :
    (∀ cfg : IniSections, L.iniAppend input = .ok cfg →
      (INIParser.UnmarshalReader L v input c).out = .returned none ∧
      (∀ (pre post : List (Str × Value)) (name : Str) (w : Value),
        INIParser.assignments cfg = pre ++ (name, w) :: post → name ∉ mapKeys post →
        mapGet (INIParser.UnmarshalReader L v input c).c name = some w) ∧
      ((mapKeys (INIParser.assignments cfg)).Nodup →
        ∀ sec ∈ cfg, ∀ key ∈ sec.2,
          mapGet (INIParser.UnmarshalReader L v input c).c (sec.1 ++ '.' :: key.1)
            = some (.scalar (.str (iniKeyString cfg sec.1 key.1))))) ∧
    (∀ (held : Option Properties) (prop : Properties) (pre post ps : List Str) (k : Str),
      v.propertier = some held → L.propertiesLoad input = .ok prop →
      prop.Keys = pre ++ Join (ps ++ [k]) ".".toList :: post →
      (∀ s ∈ ps ++ [k], '.' ∉ s) →
      (∀ q ∈ post, ¬ PROPSParser.place L q <+: ps ++ [ToLower L k] ∧
        ¬ ps ++ [ToLower L k] <+: PROPSParser.place L q) →
      (PROPSParser.UnmarshalReader L v input c).out = .returned none ∧
      getAt (PROPSParser.UnmarshalReader L v input c).c (ps ++ [ToLower L k])
        = some (.scalar (.str (prop.Get (Join (ps ++ [k]) ".".toList)).1)) ∧
      ∀ x ∈ mapKeys (PROPSParser.UnmarshalReader L v input c).c,
        x ∈ mapKeys c ∨ ∃ q ∈ prop.Keys, (PROPSParser.place L q).head? = some x) := by
  constructor
  · intro cfg hcfg
    have hgen : ∀ (pre post : List (Str × Value)) (name : Str) (w : Value),
        INIParser.assignments cfg = pre ++ (name, w) :: post → name ∉ mapKeys post →
        mapGet (INIParser.UnmarshalReader L v input c).c name = some w := by
      intro pre post name w he hn
      simp only [INIParser.UnmarshalReader, hcfg, he]
      exact mapGet_foldl_last pre post c name w hn
    refine ⟨by simp [INIParser.UnmarshalReader, hcfg], hgen, ?_⟩
    intro hnd sec hsec key hkey
    have hmem : (sec.1 ++ '.' :: key.1, Value.scalar (.str (iniKeyString cfg sec.1 key.1)))
        ∈ INIParser.assignments cfg := by
      simp only [INIParser.assignments, List.mem_flatMap, List.mem_map]
      exact ⟨sec, hsec, key, hkey, by simp⟩
    obtain ⟨pre, post, he⟩ := List.append_of_mem hmem
    refine hgen pre post _ _ he ?_
    rw [he] at hnd
    simp only [mapKeys, List.map_append, List.map_cons] at hnd
    have := (List.nodup_append.1 hnd).2.1
    exact (List.nodup_cons.1 this).1
  · intro held prop pre post ps k hv hp hk hseg hfr
    have hpl := place_join L ps k hseg
    refine ⟨by simp [PROPSParser.UnmarshalReader, hv, hp], ?_, ?_⟩
    · simp only [PROPSParser.UnmarshalReader, hv, hp, hk]
      rw [List.foldl_append, List.foldl_cons, getAt_foldl_frame L prop post _ _ hfr, ← hpl,
        getAt_store_same]
    · intro x hx
      simp only [PROPSParser.UnmarshalReader, hv, hp] at hx
      exact mapKeys_foldl_store L prop _ c x hx

/-- The properties half of the amended C8 on a file with the keys a.b and a.C:
the value of a.b is found at target[a][b]. -/
theorem flat_decode_placement_witness :
    propsStore.propertier = some none ∧
    propsLoaded.Keys = [] ++ Join (["a".toList] ++ ["b".toList]) ".".toList :: ["a.C".toList] ∧
    PROPSParser.place (sampleLibs [] propsLoaded) "a.C".toList = ["a".toList, "c".toList] ∧
    getAt (PROPSParser.UnmarshalReader (sampleLibs [] propsLoaded) propsStore
        "a.b=1\na.C=2".toList []).c (["a".toList] ++ [ToLower (sampleLibs [] propsLoaded) "b".toList])
      = some (.scalar (.str (propsLoaded.Get (Join (["a".toList] ++ ["b".toList]) ".".toList)).1)) :=
  ⟨rfl, rfl, rfl,
   ((flat_decode_placement (sampleLibs [] propsLoaded) propsStore "a.b=1\na.C=2".toList []).2
      none propsLoaded [] ["a.C".toList] ["a".toList] "b".toList rfl rfl rfl (by decide)
      (by decide)).2.1⟩

end Easyconfig
